import Mathlib

/-!
# Verification of the JSON-RPC message-framing core

This development embeds the message-framing core of the repository:

* `ShortReadStream` — translated from `src/python/test_jsonrpc.py`
  (the short-read simulation used by the test suite);
* the server dispatch-loop reader — translated from
  `src/dnalang/mcp-server/nclm_mcp_server.py`, `main`;
* the `JsonRpcClient` framing primitives (`_read_exact`, `_read_message`,
  the message writer) of `copilot.jsonrpc` — the module itself is not part
  of the source tree (only its unit tests are), so these are modelled from
  the specification, as marked in their doc comments.

Bytes are modelled as `Nat` (each value below 256 where produced by the
encoder), byte strings as `List Nat`, and text as `List Char`.
-/

namespace JsonRpc

/-! ## UTF-8 encoding and decoding

Model of Python's `str.encode("utf-8")` and `bytes.decode()` for the
strings this protocol exchanges. -/

/-- UTF-8 encoding of one Unicode scalar value (1–4 bytes). -/
def utf8EncodeChar (c : Char) : List Nat :=
  if c.toNat < 0x80 then [c.toNat]
  else if c.toNat < 0x800 then [0xC0 + c.toNat / 64, 0x80 + c.toNat % 64]
  else if c.toNat < 0x10000 then
    [0xE0 + c.toNat / 4096, 0x80 + (c.toNat / 64) % 64, 0x80 + c.toNat % 64]
  else
    [0xF0 + c.toNat / 262144, 0x80 + (c.toNat / 4096) % 64,
     0x80 + (c.toNat / 64) % 64, 0x80 + c.toNat % 64]

/-- UTF-8 encoding of a string, byte by byte. -/
def utf8Encode : List Char → List Nat
  | [] => []
  | c :: cs => utf8EncodeChar c ++ utf8Encode cs

/-- Is `b` a UTF-8 continuation byte? -/
def isCont (b : Nat) : Prop := 0x80 ≤ b ∧ b < 0xC0

instance (b : Nat) : Decidable (isCont b) := by unfold isCont; infer_instance

/-- Tail of a two-byte UTF-8 sequence. -/
def utf8Dec2 (b0 : Nat) : List Nat → Option (Char × List Nat)
  | b1 :: rest1 =>
    if isCont b1 then some (Char.ofNat ((b0 - 0xC0) * 64 + (b1 - 0x80)), rest1)
    else none
  | [] => none

/-- Tail of a three-byte UTF-8 sequence (rejects overlong forms and
surrogate code points). -/
def utf8Dec3 (b0 : Nat) : List Nat → Option (Char × List Nat)
  | b1 :: b2 :: rest2 =>
    if isCont b1 ∧ isCont b2 ∧
        0x800 ≤ (b0 - 0xE0) * 4096 + (b1 - 0x80) * 64 + (b2 - 0x80) ∧
        ((b0 - 0xE0) * 4096 + (b1 - 0x80) * 64 + (b2 - 0x80) < 0xD800 ∨
          0xE000 ≤ (b0 - 0xE0) * 4096 + (b1 - 0x80) * 64 + (b2 - 0x80)) then
      some (Char.ofNat ((b0 - 0xE0) * 4096 + (b1 - 0x80) * 64 + (b2 - 0x80)), rest2)
    else none
  | _ => none

/-- Tail of a four-byte UTF-8 sequence (rejects overlong and out-of-range
forms). -/
def utf8Dec4 (b0 : Nat) : List Nat → Option (Char × List Nat)
  | b1 :: b2 :: b3 :: rest3 =>
    if isCont b1 ∧ isCont b2 ∧ isCont b3 ∧
        0x10000 ≤ (b0 - 0xF0) * 262144 + (b1 - 0x80) * 4096 + (b2 - 0x80) * 64 + (b3 - 0x80) ∧
        (b0 - 0xF0) * 262144 + (b1 - 0x80) * 4096 + (b2 - 0x80) * 64 + (b3 - 0x80) < 0x110000 then
      some (Char.ofNat
        ((b0 - 0xF0) * 262144 + (b1 - 0x80) * 4096 + (b2 - 0x80) * 64 + (b3 - 0x80)), rest3)
    else none
  | _ => none

/-- Decode one UTF-8 scalar from the front of a byte string, returning the
character and the unconsumed tail.  Rejects truncated sequences, stray
continuation bytes, overlong forms, surrogates and out-of-range values. -/
def utf8DecodeChar : List Nat → Option (Char × List Nat)
  | [] => none
  | b0 :: rest =>
    if b0 < 0x80 then some (Char.ofNat b0, rest)
    else if 0xC2 ≤ b0 ∧ b0 < 0xE0 then utf8Dec2 b0 rest
    else if 0xE0 ≤ b0 ∧ b0 < 0xF0 then utf8Dec3 b0 rest
    else if 0xF0 ≤ b0 ∧ b0 < 0xF5 then utf8Dec4 b0 rest
    else none

theorem utf8Dec2_length {b0 : Nat} {l : List Nat} {c : Char} {r : List Nat}
    (h : utf8Dec2 b0 l = some (c, r)) : r.length < l.length := by
  match l with
  | [] => simp [utf8Dec2] at h
  | b1 :: rest1 =>
    simp only [utf8Dec2] at h
    split at h
    · simp only [Option.some.injEq, Prod.mk.injEq] at h
      simp [← h.2]
    · simp at h

theorem utf8Dec3_length {b0 : Nat} {l : List Nat} {c : Char} {r : List Nat}
    (h : utf8Dec3 b0 l = some (c, r)) : r.length < l.length := by
  match l with
  | [] => simp [utf8Dec3] at h
  | [b1] => simp [utf8Dec3] at h
  | b1 :: b2 :: rest2 =>
    simp only [utf8Dec3] at h
    split at h
    · simp only [Option.some.injEq, Prod.mk.injEq] at h
      simp [← h.2]
      omega
    · simp at h

theorem utf8Dec4_length {b0 : Nat} {l : List Nat} {c : Char} {r : List Nat}
    (h : utf8Dec4 b0 l = some (c, r)) : r.length < l.length := by
  match l with
  | [] => simp [utf8Dec4] at h
  | [b1] => simp [utf8Dec4] at h
  | [b1, b2] => simp [utf8Dec4] at h
  | b1 :: b2 :: b3 :: rest3 =>
    simp only [utf8Dec4] at h
    split at h
    · simp only [Option.some.injEq, Prod.mk.injEq] at h
      simp [← h.2]
      omega
    · simp at h

theorem utf8DecodeChar_length {l : List Nat} {c : Char} {rest : List Nat}
    (h : utf8DecodeChar l = some (c, rest)) : rest.length < l.length := by
  match l with
  | [] => simp [utf8DecodeChar] at h
  | b0 :: r =>
    simp only [utf8DecodeChar] at h
    split at h
    · simp only [Option.some.injEq, Prod.mk.injEq] at h
      simp [← h.2]
    · split at h
      · have := utf8Dec2_length h
        simp only [List.length_cons]
        omega
      · split at h
        · have := utf8Dec3_length h
          simp only [List.length_cons]
          omega
        · split at h
          · have := utf8Dec4_length h
            simp only [List.length_cons]
            omega
          · simp at h

/-- UTF-8 decoding of a byte string (Python `bytes.decode()`). -/
def utf8Decode (l : List Nat) : Option (List Char) :=
  match h : utf8DecodeChar l with
  | some (c, rest) => (utf8Decode rest).map (c :: ·)
  | none => if l = [] then some [] else none
termination_by l.length
decreasing_by exact utf8DecodeChar_length h

theorem char_toNat_valid (c : Char) :
    c.toNat < 0xD800 ∨ (0xE000 ≤ c.toNat ∧ c.toNat < 0x110000) := by
  have h := c.valid
  unfold UInt32.isValidChar at h
  unfold Nat.isValidChar at h
  unfold Char.toNat
  omega

theorem utf8DecodeChar_encodeChar (c : Char) (bs : List Nat) :
    utf8DecodeChar (utf8EncodeChar c ++ bs) = some (c, bs) := by
  have hv := char_toNat_valid c
  have hofn : Char.ofNat c.toNat = c := Char.ofNat_toNat c
  unfold utf8EncodeChar
  by_cases h1 : c.toNat < 0x80
  · rw [if_pos h1]
    simp only [List.cons_append, List.nil_append, utf8DecodeChar]
    rw [if_pos h1, hofn]
  · rw [if_neg h1]
    by_cases h2 : c.toNat < 0x800
    · rw [if_pos h2]
      simp only [List.cons_append, List.nil_append, utf8DecodeChar]
      rw [if_neg (by omega), if_pos (by omega)]
      simp only [utf8Dec2]
      rw [if_pos (by unfold isCont; omega)]
      have harith : (0xC0 + c.toNat / 64 - 0xC0) * 64 + (0x80 + c.toNat % 64 - 0x80)
          = c.toNat := by omega
      rw [harith, hofn]
    · rw [if_neg h2]
      by_cases h3 : c.toNat < 0x10000
      · rw [if_pos h3]
        simp only [List.cons_append, List.nil_append, utf8DecodeChar]
        rw [if_neg (by omega), if_neg (by omega), if_pos (by omega)]
        simp only [utf8Dec3]
        have harith : (0xE0 + c.toNat / 4096 - 0xE0) * 4096 +
            (0x80 + c.toNat / 64 % 64 - 0x80) * 64 + (0x80 + c.toNat % 64 - 0x80)
            = c.toNat := by omega
        rw [if_pos (by unfold isCont; rw [harith]; omega)]
        rw [harith, hofn]
      · rw [if_neg h3]
        simp only [List.cons_append, List.nil_append, utf8DecodeChar]
        rw [if_neg (by omega), if_neg (by omega), if_neg (by omega), if_pos (by omega)]
        simp only [utf8Dec4]
        have harith : (0xF0 + c.toNat / 262144 - 0xF0) * 262144 +
            (0x80 + c.toNat / 4096 % 64 - 0x80) * 4096 +
            (0x80 + c.toNat / 64 % 64 - 0x80) * 64 + (0x80 + c.toNat % 64 - 0x80)
            = c.toNat := by omega
        rw [if_pos (by unfold isCont; rw [harith]; omega)]
        rw [harith, hofn]

theorem utf8Decode_cons (c : Char) (bs : List Nat) :
    utf8Decode (utf8EncodeChar c ++ bs) = (utf8Decode bs).map (c :: ·) := by
  rw [utf8Decode]
  split
  · rename_i c' rest h
    rw [utf8DecodeChar_encodeChar] at h
    simp only [Option.some.injEq, Prod.mk.injEq] at h
    rw [h.1, h.2]
  · rename_i h
    rw [utf8DecodeChar_encodeChar] at h
    simp at h

/-- UTF-8 round-trip: decoding an encoded string yields the string back. -/
theorem utf8Decode_encode (s : List Char) :
    utf8Decode (utf8Encode s) = some s := by
  induction s with
  | nil =>
    rw [utf8Encode, utf8Decode]
    simp [utf8DecodeChar]
  | cons c cs ih =>
    rw [utf8Encode, utf8Decode_cons, ih]
    rfl

/-! ## JSON values

The payloads of the protocol are JSON values.  Numbers are modelled as
integers (the test-suite payloads use only integers and strings; floating
point is outside the embedding), strings as lists of Unicode scalars, and
objects as ordered key/value lists, which is how Python builds and
serializes `dict`s (insertion order). -/

mutual
inductive JsonValue where
  | null : JsonValue
  | bool (b : Bool) : JsonValue
  | num (n : Int) : JsonValue
  | str (s : List Char) : JsonValue
  | arr (xs : JsonArr) : JsonValue
  | obj (kvs : JsonObj) : JsonValue

inductive JsonArr where
  | nil : JsonArr
  | cons (hd : JsonValue) (tl : JsonArr) : JsonArr

inductive JsonObj where
  | nil : JsonObj
  | cons (k : List Char) (v : JsonValue) (tl : JsonObj) : JsonObj
end

/-- The `\x7b` character, kept out of character literals. -/
def lbrace : Char := Char.ofNat 123

/-- The `\x7d` character, kept out of character literals. -/
def rbrace : Char := Char.ofNat 125

/-- Decimal digit to its character. -/
def digitChar (d : Nat) : Char := Char.ofNat (48 + d)

/-- Decimal representation of a natural number (Python `str(n)`). -/
def natToChars (n : Nat) : List Char :=
  if n = 0 then ['0'] else (Nat.digits 10 n).reverse.map digitChar

/-- Decimal representation of an integer (Python `str(i)`). -/
def intToChars (i : Int) : List Char :=
  if i < 0 then '-' :: natToChars i.natAbs else natToChars i.toNat

/-- Lower-case hexadecimal digit character. -/
def hexDigit (d : Nat) : Char :=
  if d < 10 then Char.ofNat (48 + d) else Char.ofNat (87 + d)

/-- JSON string escaping of one character, as `json.dumps` emits it with
`ensure_ascii=False`: the spec asks for a compact UTF-8 body whose length
is counted after encoding, so non-ASCII characters are emitted literally
and become multi-byte UTF-8 sequences. -/
def escapeChar (c : Char) : List Char :=
  if c = '"' then ['\\', '"']
  else if c = '\\' then ['\\', '\\']
  else if c = '\n' then ['\\', 'n']
  else if c = '\r' then ['\\', 'r']
  else if c = '\t' then ['\\', 't']
  else if c.toNat = 8 then ['\\', 'b']
  else if c.toNat = 12 then ['\\', 'f']
  else if c.toNat < 0x20 then
    ['\\', 'u', '0', '0', hexDigit (c.toNat / 16), hexDigit (c.toNat % 16)]
  else [c]

/-- JSON string escaping, character by character. -/
def escapeChars : List Char → List Char
  | [] => []
  | c :: cs => escapeChar c ++ escapeChars cs

/-- The two boolean keywords of JSON. -/
def boolChars : Bool → List Char
  | true => ['t', 'r', 'u', 'e']
  | false => ['f', 'a', 'l', 's', 'e']

/- Compact JSON serialization: `json.dumps(v, separators=(",", ":"))`,
with non-ASCII characters emitted literally (see `escapeChar`). -/
mutual
/-- Serialize a JSON value compactly. -/
def dumps : JsonValue → List Char
  | .null => ['n', 'u', 'l', 'l']
  | .bool b => boolChars b
  | .num i => intToChars i
  | .str s => '"' :: (escapeChars s ++ ['"'])
  | .arr xs => '[' :: (dumpsArr xs ++ [']'])
  | .obj kvs => lbrace :: (dumpsObj kvs ++ [rbrace])

def dumpsArr : JsonArr → List Char
  | .nil => []
  | .cons v .nil => dumps v
  | .cons v (.cons w tl) => dumps v ++ ',' :: dumpsArr (.cons w tl)

def dumpsObj : JsonObj → List Char
  | .nil => []
  | .cons k v .nil => '"' :: (escapeChars k ++ '"' :: ':' :: dumps v)
  | .cons k v (.cons k2 w tl) =>
    ('"' :: (escapeChars k ++ '"' :: ':' :: dumps v)) ++ ',' :: dumpsObj (.cons k2 w tl)
end

/-! ## JSON parsing

Model of `json.loads` restricted to what the writer can emit: a strict
recursive-descent parser over the compact serialization.  Whitespace
tolerance and float syntax of the Python parser are not modelled (the
writer emits neither); lone surrogate escapes are rejected (they are not
Unicode scalars), surrogate pairs are combined as `json.loads` does. -/

/-- Is `c` a decimal digit character? -/
def isDigitChar (c : Char) : Prop := 48 ≤ c.toNat ∧ c.toNat ≤ 57

instance (c : Char) : Decidable (isDigitChar c) := by unfold isDigitChar; infer_instance

/-- Value of a hexadecimal digit character. -/
def hexVal (c : Char) : Option Nat :=
  if 48 ≤ c.toNat ∧ c.toNat ≤ 57 then some (c.toNat - 48)
  else if 97 ≤ c.toNat ∧ c.toNat ≤ 102 then some (c.toNat - 87)
  else if 65 ≤ c.toNat ∧ c.toNat ≤ 70 then some (c.toNat - 55)
  else none

/-- Consume a maximal run of decimal digits, accumulating their value. -/
def parseDigitsAux : Nat → List Char → Nat × List Char
  | acc, [] => (acc, [])
  | acc, c :: cs =>
    if isDigitChar c then parseDigitsAux (acc * 10 + (c.toNat - 48)) cs
    else (acc, c :: cs)

/-- Parse a nonempty run of decimal digits. -/
def parseNatChars : List Char → Option (Nat × List Char)
  | [] => none
  | c :: cs =>
    if isDigitChar c then some (parseDigitsAux 0 (c :: cs)) else none

/-- Parse a nonempty digit run and reject a following fraction or exponent
(floats are outside the embedding). -/
def parseNatEnd (l : List Char) : Option (Nat × List Char) :=
  match parseNatChars l with
  | none => none
  | some (n, rest) =>
    match rest with
    | [] => some (n, [])
    | c :: _ =>
      if c = '.' ∨ c = 'e' ∨ c = 'E' then none else some (n, rest)

/-- Parse a JSON integer. -/
def parseIntChars : List Char → Option (Int × List Char)
  | [] => none
  | c :: cs =>
    if c = '-' then (parseNatEnd cs).map (fun p => (-(p.1 : Int), p.2))
    else (parseNatEnd (c :: cs)).map (fun p => ((p.1 : Int), p.2))

/-- Unescape a single-character JSON escape. -/
def escUn (e : Char) : Option Char :=
  if e = '"' then some '"'
  else if e = '\\' then some '\\'
  else if e = '/' then some '/'
  else if e = 'b' then some (Char.ofNat 8)
  else if e = 'f' then some (Char.ofNat 12)
  else if e = 'n' then some '\n'
  else if e = 'r' then some '\r'
  else if e = 't' then some '\t'
  else none

/-- Parse exactly four hexadecimal digit characters. -/
def parseHex4 : List Char → Option (Nat × List Char)
  | h1 :: h2 :: h3 :: h4 :: cs =>
    match hexVal h1, hexVal h2, hexVal h3, hexVal h4 with
    | some d1, some d2, some d3, some d4 =>
      some (d1 * 4096 + d2 * 256 + d3 * 16 + d4, cs)
    | _, _, _, _ => none
  | _ => none

/-- Parse the hex digits of a `u`-escape, combining a surrogate pair as
`json.loads` does.  Lone surrogates are rejected (they are not Unicode
scalars, so not representable here). -/
def parseUEscape (cs : List Char) : Option (Char × List Char) :=
  match parseHex4 cs with
  | none => none
  | some (n, cs2) =>
    if n < 0xD800 ∨ 0xE000 ≤ n then some (Char.ofNat n, cs2)
    else if n < 0xDC00 then
      match cs2 with
      | e2 :: u2 :: cs3 =>
        if e2 = '\\' ∧ u2 = 'u' then
          match parseHex4 cs3 with
          | some (m, cs4) =>
            if 0xDC00 ≤ m ∧ m < 0xE000 then
              some (Char.ofNat (0x10000 + (n - 0xD800) * 1024 + (m - 0xDC00)), cs4)
            else none
          | none => none
        else none
      | _ => none
    else none

theorem parseHex4_length {cs : List Char} {n : Nat} {rest : List Char}
    (h : parseHex4 cs = some (n, rest)) : rest.length + 4 = cs.length := by
  match cs with
  | [] => simp [parseHex4] at h
  | [a] => simp [parseHex4] at h
  | [a, b] => simp [parseHex4] at h
  | [a, b, c] => simp [parseHex4] at h
  | a :: b :: c :: d :: cs1 =>
    simp only [parseHex4] at h
    split at h
    · simp only [Option.some.injEq, Prod.mk.injEq] at h
      simp [← h.2]
    · simp at h

theorem parseUEscape_length {cs : List Char} {c : Char} {rest : List Char}
    (h : parseUEscape cs = some (c, rest)) : rest.length ≤ cs.length := by
  unfold parseUEscape at h
  cases hh4 : parseHex4 cs with
  | none => rw [hh4] at h; simp at h
  | some p =>
    obtain ⟨n, cs2⟩ := p
    rw [hh4] at h
    have h4 := parseHex4_length hh4
    dsimp only at h
    by_cases hv : n < 0xD800 ∨ 0xE000 ≤ n
    · rw [if_pos hv] at h
      simp only [Option.some.injEq, Prod.mk.injEq] at h
      obtain ⟨-, rfl⟩ := h
      omega
    · rw [if_neg hv] at h
      by_cases hlo : n < 0xDC00
      · rw [if_pos hlo] at h
        rcases cs2 with - | ⟨e2, - | ⟨u2, cs3⟩⟩
        · simp at h
        · simp at h
        · dsimp only at h
          by_cases hbu : e2 = '\\' ∧ u2 = 'u'
          · rw [if_pos hbu] at h
            cases hh4b : parseHex4 cs3 with
            | none => rw [hh4b] at h; simp at h
            | some q =>
              obtain ⟨m, cs4⟩ := q
              rw [hh4b] at h
              have h4b := parseHex4_length hh4b
              dsimp only at h
              by_cases hm : 0xDC00 ≤ m ∧ m < 0xE000
              · rw [if_pos hm] at h
                simp only [Option.some.injEq, Prod.mk.injEq] at h
                obtain ⟨-, rfl⟩ := h
                simp only [List.length_cons] at h4
                omega
              · rw [if_neg hm] at h
                simp at h
          · rw [if_neg hbu] at h
            simp at h
      · rw [if_neg hlo] at h
        simp at h

/-- Parse a JSON string body after the opening quote, returning the string
and the text after the closing quote. -/
def parseStringAux (l : List Char) : Option (List Char × List Char) :=
  match l with
  | [] => none
  | c :: cs =>
    if c = '"' then some ([], cs)
    else if c = '\\' then
      match cs with
      | [] => none
      | e :: cs1 =>
        if e = 'u' then
          match h : parseUEscape cs1 with
          | some p => (parseStringAux p.2).map (fun q => (p.1 :: q.1, q.2))
          | none => none
        else
          match escUn e with
          | some ec => (parseStringAux cs1).map (fun q => (ec :: q.1, q.2))
          | none => none
    else if c.toNat < 0x20 then none
    else (parseStringAux cs).map (fun q => (c :: q.1, q.2))
termination_by l.length
decreasing_by
  · have := parseUEscape_length h
    simp only [List.length_cons]
    omega
  · simp only [List.length_cons]
    omega
  · simp only [List.length_cons]
    omega

/-- Does the literal token appear at the front?  Returns the remainder. -/
def stripToken : List Char → List Char → Option (List Char)
  | [], cs => some cs
  | _ :: _, [] => none
  | t :: ts, c :: cs => if c = t then stripToken ts cs else none

/- Fueled recursive-descent JSON value parser. -/
mutual
/-- Parse one JSON value. -/
def parseVal : Nat → List Char → Option (JsonValue × List Char)
  | 0, _ => none
  | _ + 1, [] => none
  | fuel + 1, c :: cs =>
    if c = 'n' then (stripToken ['u', 'l', 'l'] cs).map (fun r => (.null, r))
    else if c = 't' then (stripToken ['r', 'u', 'e'] cs).map (fun r => (.bool true, r))
    else if c = 'f' then (stripToken ['a', 'l', 's', 'e'] cs).map (fun r => (.bool false, r))
    else if c = '"' then (parseStringAux cs).map (fun p => (.str p.1, p.2))
    else if c = '[' then
      match cs with
      | [] => none
      | c1 :: cs1 =>
        if c1 = ']' then some (.arr .nil, cs1)
        else (parseArrElems fuel (c1 :: cs1)).map (fun p => (.arr p.1, p.2))
    else if c = lbrace then
      match cs with
      | [] => none
      | c1 :: cs1 =>
        if c1 = rbrace then some (.obj .nil, cs1)
        else (parseObjMembers fuel (c1 :: cs1)).map (fun p => (.obj p.1, p.2))
    else if c = '-' ∨ isDigitChar c then
      (parseIntChars (c :: cs)).map (fun p => (.num p.1, p.2))
    else none

def parseArrElems : Nat → List Char → Option (JsonArr × List Char)
  | 0, _ => none
  | fuel + 1, cs =>
    match parseVal fuel cs with
    | none => none
    | some (v, rest) =>
      match rest with
      | [] => none
      | r :: rest1 =>
        if r = ',' then (parseArrElems fuel rest1).map (fun p => (.cons v p.1, p.2))
        else if r = ']' then some (.cons v .nil, rest1)
        else none

def parseObjMembers : Nat → List Char → Option (JsonObj × List Char)
  | 0, _ => none
  | fuel + 1, cs =>
    match cs with
    | [] => none
    | q :: cs1 =>
      if q = '"' then
        match parseStringAux cs1 with
        | none => none
        | some (k, rest) =>
          match rest with
          | [] => none
          | colon :: rest1 =>
            if colon = ':' then
              match parseVal fuel rest1 with
              | none => none
              | some (v, rest2) =>
                match rest2 with
                | [] => none
                | r :: rest3 =>
                  if r = ',' then
                    (parseObjMembers fuel rest3).map (fun p => (.cons k v p.1, p.2))
                  else if r = rbrace then some (.cons k v .nil, rest3)
                  else none
            else none
      else none
end

/-- `json.loads`: parse one JSON value covering the whole input. -/
def loads (s : List Char) : Option JsonValue :=
  match parseVal (s.length + 1) s with
  | some (v, []) => some v
  | _ => none

/-! ## Round-trip of the JSON codec: numbers -/

/-- No decimal digit at the head (so a digit run before it is maximal). -/
def noDigitHead : List Char → Prop
  | [] => True
  | c :: _ => ¬ isDigitChar c

/-- After a serialized number the input may not continue with a digit,
fraction or exponent. -/
def numEndOk : List Char → Prop
  | [] => True
  | c :: _ => ¬ isDigitChar c ∧ c ≠ '.' ∧ c ≠ 'e' ∧ c ≠ 'E'

theorem digitChar_toNat {d : Nat} (h : d < 10) : (digitChar d).toNat = 48 + d := by
  unfold digitChar
  interval_cases d <;> decide

theorem isDigitChar_digitChar {d : Nat} (h : d < 10) : isDigitChar (digitChar d) := by
  unfold isDigitChar
  rw [digitChar_toNat h]
  omega

theorem parseDigitsAux_block (ds : List Nat) :
    ∀ acc rest, (∀ d ∈ ds, d < 10) → noDigitHead rest →
      parseDigitsAux acc (ds.map digitChar ++ rest)
        = (ds.foldl (fun a d => a * 10 + d) acc, rest) := by
  induction ds with
  | nil =>
    intro acc rest _ hrest
    match rest with
    | [] => rfl
    | c :: cs =>
      simp only [List.map_nil, List.nil_append, List.foldl_nil, parseDigitsAux]
      rw [if_neg hrest]
  | cons d ds ih =>
    intro acc rest hds hrest
    simp only [List.map_cons, List.cons_append, List.foldl_cons, parseDigitsAux]
    rw [if_pos (isDigitChar_digitChar (hds d (by simp)))]
    rw [digitChar_toNat (hds d (by simp))]
    have : 48 + d - 48 = d := by omega
    rw [this]
    exact ih _ rest (fun x hx => hds x (by simp [hx])) hrest

theorem foldl_digits_reverse (L : List Nat) :
    ∀ acc, List.foldl (fun a d => a * 10 + d) acc L.reverse
      = acc * 10 ^ L.length + Nat.ofDigits 10 L := by
  induction L with
  | nil => intro acc; simp [Nat.ofDigits_nil]
  | cons d L ih =>
    intro acc
    simp only [List.reverse_cons, List.foldl_append, List.foldl_cons, List.foldl_nil, ih,
      Nat.ofDigits_cons, List.length_cons]
    ring

/-- The decimal printer produces a nonempty list of digit characters whose
value is the printed number. -/
theorem natToChars_spec (n : Nat) :
    ∃ ds, natToChars n = ds.map digitChar ∧ ds ≠ [] ∧ (∀ d ∈ ds, d < 10) ∧
      ds.foldl (fun a d => a * 10 + d) 0 = n := by
  unfold natToChars
  by_cases h0 : n = 0
  · subst h0
    refine ⟨[0], ?_, by simp, by simp, by simp⟩
    simp [digitChar]
  · rw [if_neg h0]
    refine ⟨(Nat.digits 10 n).reverse, rfl, ?_, ?_, ?_⟩
    · simp [Nat.digits_ne_nil_iff_ne_zero, h0]
    · intro d hd
      exact Nat.digits_lt_base (by omega) (List.mem_reverse.mp hd)
    · rw [foldl_digits_reverse, Nat.ofDigits_digits]
      simp

theorem parseNatChars_natToChars (n : Nat) (rest : List Char) (hrest : noDigitHead rest) :
    parseNatChars (natToChars n ++ rest) = some (n, rest) := by
  obtain ⟨ds, hds, hne, hlt, hval⟩ := natToChars_spec n
  match ds, hne with
  | d :: ds1, _ =>
    rw [hds]
    simp only [List.map_cons, List.cons_append, parseNatChars]
    rw [if_pos (isDigitChar_digitChar (hlt d (by simp)))]
    rw [show digitChar d :: (ds1.map digitChar ++ rest)
      = (d :: ds1).map digitChar ++ rest by simp]
    rw [parseDigitsAux_block _ _ _ hlt hrest, hval]

theorem parseNatEnd_natToChars (n : Nat) (rest : List Char) (hrest : numEndOk rest) :
    parseNatEnd (natToChars n ++ rest) = some (n, rest) := by
  unfold parseNatEnd
  have hnd : noDigitHead rest := by
    match rest with
    | [] => trivial
    | c :: cs => exact hrest.1
  rw [parseNatChars_natToChars n rest hnd]
  match rest with
  | [] => rfl
  | c :: cs =>
    show (if c = '.' ∨ c = 'e' ∨ c = 'E' then none else some (n, c :: cs))
      = some (n, c :: cs)
    rw [if_neg (by
      simp only [not_or]
      exact ⟨hrest.2.1, hrest.2.2.1, hrest.2.2.2⟩)]

theorem natToChars_head (n : Nat) :
    ∃ c cs, natToChars n = c :: cs ∧ isDigitChar c := by
  obtain ⟨ds, hds, hne, hlt, _⟩ := natToChars_spec n
  match ds, hne with
  | d :: ds1, _ =>
    exact ⟨digitChar d, ds1.map digitChar, by simp [hds],
      isDigitChar_digitChar (hlt d (by simp))⟩

theorem parseIntChars_intToChars (i : Int) (rest : List Char) (hrest : numEndOk rest) :
    parseIntChars (intToChars i ++ rest) = some (i, rest) := by
  unfold intToChars
  by_cases hneg : i < 0
  · rw [if_pos hneg]
    show parseIntChars ('-' :: (natToChars i.natAbs ++ rest)) = some (i, rest)
    rw [parseIntChars.eq_def]
    dsimp only
    rw [if_pos rfl, parseNatEnd_natToChars _ rest hrest]
    simp only [Option.map_some']
    have : -((i.natAbs : Nat) : Int) = i := by omega
    rw [this]
  · rw [if_neg hneg]
    obtain ⟨c, cs, hc, hdig⟩ := natToChars_head i.toNat
    rw [hc]
    show parseIntChars (c :: (cs ++ rest)) = some (i, rest)
    rw [parseIntChars.eq_def]
    dsimp only
    rw [if_neg ?hnotminus]
    case hnotminus =>
      intro he
      rw [he] at hdig
      exact absurd hdig (by decide)
    rw [show c :: (cs ++ rest) = (c :: cs) ++ rest from rfl, ← hc,
      parseNatEnd_natToChars _ rest hrest]
    simp only [Option.map_some']
    have : ((i.toNat : Nat) : Int) = i := by omega
    rw [this]

/-! ## Round-trip of the JSON codec: strings -/

theorem hexVal_hexDigit {d : Nat} (h : d < 16) : hexVal (hexDigit d) = some d := by
  unfold hexVal hexDigit
  interval_cases d <;> decide

theorem parseUEscape_control (c : Char) (h20 : c.toNat < 0x20) (tail : List Char) :
    parseUEscape ('0' :: '0' :: hexDigit (c.toNat / 16) :: hexDigit (c.toNat % 16) :: tail)
      = some (c, tail) := by
  unfold parseUEscape
  simp only [parseHex4]
  rw [show hexVal '0' = some 0 from by decide]
  rw [hexVal_hexDigit (show c.toNat / 16 < 16 by omega)]
  rw [hexVal_hexDigit (show c.toNat % 16 < 16 by omega)]
  dsimp only
  rw [if_pos (by omega)]
  have harith : 0 * 4096 + 0 * 256 + c.toNat / 16 * 16 + c.toNat % 16 = c.toNat := by
    omega
  rw [harith, Char.ofNat_toNat]

theorem parseStringAux_escStep (e ec : Char) (tail : List Char)
    (hun : escUn e = some ec) (hu : e ≠ 'u') :
    parseStringAux ('\\' :: e :: tail)
      = (parseStringAux tail).map (fun q => (ec :: q.1, q.2)) := by
  rw [parseStringAux.eq_def]
  dsimp only
  rw [if_neg (by decide), if_pos rfl, if_neg hu, hun]

theorem parseStringAux_uStep (c : Char) (h20 : c.toNat < 0x20) (tail : List Char) :
    parseStringAux ('\\' :: 'u' :: '0' :: '0' ::
        hexDigit (c.toNat / 16) :: hexDigit (c.toNat % 16) :: tail)
      = (parseStringAux tail).map (fun q => (c :: q.1, q.2)) := by
  rw [parseStringAux.eq_def]
  dsimp only
  rw [if_neg (by decide), if_pos rfl, if_pos rfl]
  split
  · rename_i p heq
    rw [parseUEscape_control c h20] at heq
    injection heq with h2
    subst h2
    rfl
  · rename_i heq
    rw [parseUEscape_control c h20] at heq
    simp at heq

theorem parseStringAux_litStep (c : Char) (tail : List Char)
    (hq : c ≠ '"') (hbs : c ≠ '\\') (h20 : ¬ c.toNat < 0x20) :
    parseStringAux (c :: tail)
      = (parseStringAux tail).map (fun q => (c :: q.1, q.2)) := by
  rw [parseStringAux.eq_def]
  dsimp only
  rw [if_neg hq, if_neg hbs, if_neg h20]

theorem parseStringAux_escape (s : List Char) :
    ∀ rest, parseStringAux (escapeChars s ++ '"' :: rest) = some (s, rest) := by
  induction s with
  | nil =>
    intro rest
    simp only [escapeChars, List.nil_append]
    rw [parseStringAux.eq_def]
    dsimp only
    rw [if_pos rfl]
  | cons c cs ih =>
    intro rest
    simp only [escapeChars, List.append_assoc]
    unfold escapeChar
    by_cases hq : c = '"'
    · subst hq
      rw [if_pos rfl]
      simp only [List.cons_append, List.nil_append]
      rw [parseStringAux_escStep '"' '"' _ (by decide) (by decide), ih rest]
      rfl
    · rw [if_neg hq]
      by_cases hbs : c = '\\'
      · subst hbs
        rw [if_pos rfl]
        simp only [List.cons_append, List.nil_append]
        rw [parseStringAux_escStep '\\' '\\' _ (by decide) (by decide), ih rest]
        rfl
      · rw [if_neg hbs]
        by_cases hn : c = '\n'
        · subst hn
          rw [if_pos rfl]
          simp only [List.cons_append, List.nil_append]
          rw [parseStringAux_escStep 'n' '\n' _ (by decide) (by decide), ih rest]
          rfl
        · rw [if_neg hn]
          by_cases hr : c = '\r'
          · subst hr
            rw [if_pos rfl]
            simp only [List.cons_append, List.nil_append]
            rw [parseStringAux_escStep 'r' '\r' _ (by decide) (by decide), ih rest]
            rfl
          · rw [if_neg hr]
            by_cases ht : c = '\t'
            · subst ht
              rw [if_pos rfl]
              simp only [List.cons_append, List.nil_append]
              rw [parseStringAux_escStep 't' '\t' _ (by decide) (by decide), ih rest]
              rfl
            · rw [if_neg ht]
              by_cases hb : c.toNat = 8
              · rw [if_pos hb]
                simp only [List.cons_append, List.nil_append]
                rw [parseStringAux_escStep 'b' (Char.ofNat 8) _ (by decide) (by decide),
                  ih rest]
                have hcb : Char.ofNat 8 = c := by rw [← hb, Char.ofNat_toNat]
                rw [hcb]
                rfl
              · rw [if_neg hb]
                by_cases hf : c.toNat = 12
                · rw [if_pos hf]
                  simp only [List.cons_append, List.nil_append]
                  rw [parseStringAux_escStep 'f' (Char.ofNat 12) _ (by decide) (by decide),
                    ih rest]
                  have hcf : Char.ofNat 12 = c := by rw [← hf, Char.ofNat_toNat]
                  rw [hcf]
                  rfl
                · rw [if_neg hf]
                  by_cases h20 : c.toNat < 0x20
                  · rw [if_pos h20]
                    simp only [List.cons_append, List.nil_append]
                    rw [parseStringAux_uStep c h20, ih rest]
                    rfl
                  · rw [if_neg h20]
                    simp only [List.cons_append, List.nil_append]
                    rw [parseStringAux_litStep c _ hq hbs h20, ih rest]
                    rfl

/-! ## Round-trip of the JSON codec: values -/

/-- What may legitimately follow a serialized value: end of input, or an
element separator or closing bracket. -/
def sepOk : List Char → Prop
  | [] => True
  | c :: _ => c = ',' ∨ c = ']' ∨ c = rbrace

theorem sepOk_numEnd {rest : List Char} (h : sepOk rest) : numEndOk rest := by
  match rest with
  | [] => trivial
  | c :: cs =>
    rcases h with h | h | h <;> subst h <;>
      exact ⟨by decide, by decide, by decide, by decide⟩

theorem stripToken_self (ts : List Char) :
    ∀ rest, stripToken ts (ts ++ rest) = some rest := by
  induction ts with
  | nil => intro rest; rfl
  | cons t ts ih =>
    intro rest
    simp only [List.cons_append, stripToken, if_true]
    exact ih rest

theorem intToChars_head (i : Int) :
    ∃ c cs, intToChars i = c :: cs ∧ (c = '-' ∨ isDigitChar c) := by
  unfold intToChars
  by_cases hneg : i < 0
  · rw [if_pos hneg]
    exact ⟨'-', natToChars i.natAbs, rfl, Or.inl rfl⟩
  · rw [if_neg hneg]
    obtain ⟨c, cs, hc, hd⟩ := natToChars_head i.toNat
    exact ⟨c, cs, hc, Or.inr hd⟩

theorem dumps_head (v : JsonValue) :
    ∃ c cs, dumps v = c :: cs ∧
      ((c = '-' ∨ isDigitChar c) ∨
        (c = 'n' ∨ c = 't' ∨ c = 'f' ∨ c = '"' ∨ c = '[' ∨ c = lbrace)) := by
  cases v with
  | null => exact ⟨'n', ['u', 'l', 'l'], by rw [dumps], Or.inr (by decide)⟩
  | bool b =>
    cases b with
    | true => exact ⟨'t', ['r', 'u', 'e'], by decide, Or.inr (by decide)⟩
    | false => exact ⟨'f', ['a', 'l', 's', 'e'], by decide, Or.inr (by decide)⟩
  | num i =>
    obtain ⟨c, cs, hc, hd⟩ := intToChars_head i
    exact ⟨c, cs, by rw [dumps]; exact hc, Or.inl hd⟩
  | str s => exact ⟨'"', escapeChars s ++ ['"'], by rw [dumps], Or.inr (by decide)⟩
  | arr xs => exact ⟨'[', dumpsArr xs ++ [']'], by rw [dumps], Or.inr (by decide)⟩
  | obj kvs => exact ⟨lbrace, dumpsObj kvs ++ [rbrace], by rw [dumps], Or.inr (by decide)⟩

theorem dumpsArr_cons_head (v : JsonValue) (tl : JsonArr) :
    ∃ c t, dumpsArr (.cons v tl) = c :: t ∧ c ≠ ']' ∧ c ≠ rbrace := by
  obtain ⟨c, cs, hc, hd⟩ := dumps_head v
  have hne1 : c ≠ ']' := by intro he; subst he; revert hd; decide
  have hne2 : c ≠ rbrace := by intro he; subst he; revert hd; decide
  cases tl with
  | nil => exact ⟨c, cs, by rw [dumpsArr]; exact hc, hne1, hne2⟩
  | cons w tl2 =>
    refine ⟨c, cs ++ ',' :: dumpsArr (.cons w tl2), ?_, hne1, hne2⟩
    rw [dumpsArr, hc]
    simp [List.cons_append]

theorem dumpsObj_cons_shape (k : List Char) (v : JsonValue) (tl : JsonObj) :
    ∃ t, dumpsObj (.cons k v tl) = '"' :: t := by
  cases tl with
  | nil => exact ⟨escapeChars k ++ '"' :: ':' :: dumps v, by rw [dumpsObj]⟩
  | cons k2 w tl2 =>
    refine ⟨(escapeChars k ++ '"' :: ':' :: dumps v) ++ ',' :: dumpsObj (.cons k2 w tl2), ?_⟩
    rw [dumpsObj]
    simp [List.cons_append]

mutual
/-- Fuel needed by the parser on each serialized node. -/
def needV : JsonValue → Nat
  | .null => 1
  | .bool _ => 1
  | .num _ => 1
  | .str _ => 1
  | .arr xs => 1 + needA xs
  | .obj kvs => 1 + needO kvs

def needA : JsonArr → Nat
  | .nil => 0
  | .cons v tl => 1 + needV v + needA tl

def needO : JsonObj → Nat
  | .nil => 0
  | .cons _ v tl => 1 + needV v + needO tl
end

theorem needV_pos (v : JsonValue) : 1 ≤ needV v := by
  cases v <;> simp [needV]

theorem lbrace_ne_n : lbrace ≠ 'n' := by decide

theorem lbrace_ne_t : lbrace ≠ 't' := by decide

theorem lbrace_ne_f : lbrace ≠ 'f' := by decide

theorem lbrace_ne_quote : lbrace ≠ '"' := by decide

theorem lbrace_ne_lbrack : lbrace ≠ '[' := by decide

theorem quote_ne_rbrace : '"' ≠ rbrace := by decide

theorem rbrace_ne_comma : rbrace ≠ ',' := by decide

theorem rbrace_ne_rbrack : rbrace ≠ ']' := by decide

mutual
theorem parseVal_dumps (v : JsonValue) :
    ∀ fuel rest, needV v < fuel → sepOk rest →
      parseVal fuel (dumps v ++ rest) = some (v, rest) := by
  cases v with
  | null =>
    intro fuel rest hf _
    obtain ⟨f, rfl⟩ : ∃ f, fuel = f + 1 := ⟨fuel - 1, by omega⟩
    rw [dumps]
    simp [parseVal, stripToken]
  | bool b =>
    intro fuel rest hf _
    obtain ⟨f, rfl⟩ : ∃ f, fuel = f + 1 := ⟨fuel - 1, by omega⟩
    cases b with
    | true =>
      rw [dumps]
      simp [parseVal, stripToken, boolChars]
    | false =>
      rw [dumps]
      simp [parseVal, stripToken, boolChars]
  | num i =>
    intro fuel rest hf hsep
    obtain ⟨f, rfl⟩ : ∃ f, fuel = f + 1 := ⟨fuel - 1, by omega⟩
    obtain ⟨c, cs, hc, hd⟩ := intToChars_head i
    have hnum := parseIntChars_intToChars i rest (sepOk_numEnd hsep)
    rw [hc] at hnum
    rw [dumps, hc]
    simp only [List.cons_append, parseVal]
    rw [if_neg (by intro he; subst he; revert hd; decide)]
    rw [if_neg (by intro he; subst he; revert hd; decide)]
    rw [if_neg (by intro he; subst he; revert hd; decide)]
    rw [if_neg (by intro he; subst he; revert hd; decide)]
    rw [if_neg (by intro he; subst he; revert hd; decide)]
    rw [if_neg (by intro he; subst he; revert hd; decide)]
    rw [if_pos hd]
    simp only [List.cons_append] at hnum
    rw [hnum]
    rfl
  | str s =>
    intro fuel rest hf _
    obtain ⟨f, rfl⟩ : ∃ f, fuel = f + 1 := ⟨fuel - 1, by omega⟩
    have hps := parseStringAux_escape s rest
    rw [dumps]
    simp [parseVal, hps]
  | arr xs =>
    intro fuel rest hf hsep
    obtain ⟨f, rfl⟩ : ∃ f, fuel = f + 1 := ⟨fuel - 1, by omega⟩
    have hfA : needA xs < f := by
      simp only [needV] at hf
      omega
    cases xs with
    | nil =>
      rw [dumps, dumpsArr]
      simp [parseVal]
    | cons v tl =>
      obtain ⟨c1, t1, hshape, hne1, hne2⟩ := dumpsArr_cons_head v tl
      have hpa := parseArrElems_dumps (.cons v tl) f rest (by intro he; cases he) hfA hsep
      rw [hshape] at hpa
      simp only [List.cons_append, List.append_assoc] at hpa
      rw [dumps, hshape]
      simp [parseVal, hne1, hpa]
  | obj kvs =>
    intro fuel rest hf hsep
    obtain ⟨f, rfl⟩ : ∃ f, fuel = f + 1 := ⟨fuel - 1, by omega⟩
    have hfO : needO kvs < f := by
      simp only [needV] at hf
      omega
    cases kvs with
    | nil =>
      rw [dumps, dumpsObj]
      simp [parseVal, lbrace_ne_n, lbrace_ne_t, lbrace_ne_f, lbrace_ne_quote, lbrace_ne_lbrack, quote_ne_rbrace, rbrace_ne_comma, rbrace_ne_rbrack]
    | cons k v tl =>
      obtain ⟨t1, hshape⟩ := dumpsObj_cons_shape k v tl
      have hpo := parseObjMembers_dumps (.cons k v tl) f rest (by intro he; cases he) hfO hsep
      rw [hshape] at hpo
      simp only [List.cons_append, List.append_assoc] at hpo
      rw [dumps, hshape]
      simp [parseVal, hpo, lbrace_ne_n, lbrace_ne_t, lbrace_ne_f, lbrace_ne_quote, lbrace_ne_lbrack, quote_ne_rbrace, rbrace_ne_comma, rbrace_ne_rbrack]

theorem parseArrElems_dumps (xs : JsonArr) :
    ∀ fuel rest, xs ≠ .nil → needA xs < fuel → sepOk rest →
      parseArrElems fuel (dumpsArr xs ++ ']' :: rest) = some (xs, rest) := by
  cases xs with
  | nil => intro fuel rest hne _ _; exact absurd rfl hne
  | cons v tl =>
    intro fuel rest _ hfa hsep
    obtain ⟨g, rfl⟩ : ∃ g, fuel = g + 1 := ⟨fuel - 1, by omega⟩
    have hv : needV v < g := by
      simp only [needA] at hfa
      omega
    cases tl with
    | nil =>
      have hpv := parseVal_dumps v g (']' :: rest) hv (Or.inr (Or.inl rfl))
      rw [dumpsArr]
      simp [parseArrElems, hpv]
    | cons w tl2 =>
      have hpv := parseVal_dumps v g (',' :: (dumpsArr (.cons w tl2) ++ ']' :: rest)) hv
        (Or.inl rfl)
      have htl : needA (.cons w tl2) < g := by
        have := needV_pos v
        simp only [needA] at hfa ⊢
        omega
      have hpa := parseArrElems_dumps (.cons w tl2) g rest (by intro he; cases he) htl hsep
      rw [dumpsArr]
      simp only [List.append_assoc, List.cons_append]
      simp [parseArrElems, hpv, hpa]

theorem parseObjMembers_dumps (kvs : JsonObj) :
    ∀ fuel rest, kvs ≠ .nil → needO kvs < fuel → sepOk rest →
      parseObjMembers fuel (dumpsObj kvs ++ rbrace :: rest) = some (kvs, rest) := by
  cases kvs with
  | nil => intro fuel rest hne _ _; exact absurd rfl hne
  | cons k v tl =>
    intro fuel rest _ hfo hsep
    obtain ⟨g, rfl⟩ : ∃ g, fuel = g + 1 := ⟨fuel - 1, by omega⟩
    have hv : needV v < g := by
      simp only [needO] at hfo
      omega
    cases tl with
    | nil =>
      have hpv := parseVal_dumps v g (rbrace :: rest) hv (Or.inr (Or.inr rfl))
      have hps := parseStringAux_escape k (':' :: (dumps v ++ rbrace :: rest))
      rw [dumpsObj]
      simp only [List.cons_append, List.append_assoc, List.nil_append]
      simp [parseObjMembers, hps, hpv, lbrace_ne_n, lbrace_ne_t, lbrace_ne_f, lbrace_ne_quote, lbrace_ne_lbrack, quote_ne_rbrace, rbrace_ne_comma, rbrace_ne_rbrack]
    | cons k2 w tl2 =>
      have hpv := parseVal_dumps v g
        (',' :: (dumpsObj (.cons k2 w tl2) ++ rbrace :: rest)) hv (Or.inl rfl)
      have hps := parseStringAux_escape k
        (':' :: (dumps v ++ ',' :: (dumpsObj (.cons k2 w tl2) ++ rbrace :: rest)))
      have htl : needO (.cons k2 w tl2) < g := by
        have := needV_pos v
        simp only [needO] at hfo ⊢
        omega
      have hpo := parseObjMembers_dumps (.cons k2 w tl2) g rest (by intro he; cases he)
        htl hsep
      rw [dumpsObj]
      simp only [List.cons_append, List.append_assoc, List.nil_append]
      simp [parseObjMembers, hps, hpv, hpo, lbrace_ne_n, lbrace_ne_t, lbrace_ne_f, lbrace_ne_quote, lbrace_ne_lbrack, quote_ne_rbrace, rbrace_ne_comma, rbrace_ne_rbrack]
end

mutual
theorem needV_le (v : JsonValue) : needV v ≤ (dumps v).length := by
  cases v with
  | null => simp [needV, dumps]
  | bool b => cases b <;> simp [needV, dumps, boolChars]
  | num i =>
    obtain ⟨c, cs, hc, -⟩ := intToChars_head i
    rw [dumps, hc]
    simp [needV]
  | str s => simp [needV, dumps]
  | arr xs =>
    have := needA_le xs
    rw [dumps]
    simp only [needV, List.length_cons, List.length_append, List.length_singleton]
    omega
  | obj kvs =>
    have := needO_le kvs
    rw [dumps]
    simp only [needV, List.length_cons, List.length_append, List.length_singleton]
    omega

theorem needA_le (xs : JsonArr) : needA xs ≤ (dumpsArr xs).length + 1 := by
  cases xs with
  | nil => simp [needA]
  | cons v tl =>
    cases tl with
    | nil =>
      have := needV_le v
      rw [dumpsArr]
      simp only [needA]
      omega
    | cons w tl2 =>
      have h1 := needV_le v
      have h2 := needA_le (.cons w tl2)
      simp only [needA] at h2
      rw [dumpsArr]
      simp only [needA, List.length_append, List.length_cons]
      omega

theorem needO_le (kvs : JsonObj) : needO kvs ≤ (dumpsObj kvs).length + 1 := by
  cases kvs with
  | nil => simp [needO]
  | cons k v tl =>
    cases tl with
    | nil =>
      have := needV_le v
      rw [dumpsObj]
      simp only [needO, List.length_cons, List.length_append]
      omega
    | cons k2 w tl2 =>
      have h1 := needV_le v
      have h2 := needO_le (.cons k2 w tl2)
      simp only [needO] at h2
      rw [dumpsObj]
      simp only [needO, List.length_cons, List.length_append]
      omega
end

/-- JSON round-trip: parsing a compact serialization yields the value back. -/
theorem loads_dumps (v : JsonValue) : loads (dumps v) = some v := by
  unfold loads
  have h := parseVal_dumps v ((dumps v).length + 1) []
    (by have := needV_le v; omega) trivial
  rw [List.append_nil] at h
  rw [h]

/-! ## The short-read stream

Translated from `ShortReadStream` in `src/python/test_jsonrpc.py`: a mock
stream over fixed data that returns at most `chunkSize` bytes per `read`
call, simulating Unix-pipe short reads. -/

/-- State of a `ShortReadStream`: the complete data, the per-call chunk
limit, and the read cursor. -/
structure ShortReadStream where
  data : List Nat
  chunkSize : Nat
  pos : Nat

/-- `ShortReadStream.readline`: return bytes up to and including the next
newline, or everything remaining when no newline is left. -/
def srsReadline (s : ShortReadStream) : List Nat × ShortReadStream :=
  match (s.data.drop s.pos).findIdx? (· == 10) with
  | some i => ((s.data.drop s.pos).take (i + 1), { s with pos := s.pos + i + 1 })
  | none => (s.data.drop s.pos, { s with pos := s.data.length })

/-- `ShortReadStream.read`: return at most `min n chunkSize` of the
remaining bytes and advance the cursor by that amount. -/
def srsRead (s : ShortReadStream) (n : Nat) : List Nat × ShortReadStream :=
  ((s.data.drop s.pos).take (min n (min (s.data.length - s.pos) s.chunkSize)),
    { s with pos := s.pos + min n (min (s.data.length - s.pos) s.chunkSize) })

/-! ## The exact-read primitive -/

/-- Data of the `EOFError` raised on a short stream: bytes obtained versus
bytes required (the message reads
`Unexpected end of stream: got ... bytes, required ...`). -/
structure EofError where
  got : Nat
  required : Nat
deriving DecidableEq

/-- Modelled from the spec: the Exact-Read Primitive `_read_exact` of the
`copilot.jsonrpc` `JsonRpcClient` is not in the source tree (only its unit
tests are), so this follows §4.1 of the specification: repeatedly invoke
the underlying read requesting up to the remaining byte count, appending
each returned chunk, until the accumulated length equals `n`; if a read
returns zero bytes first, fail with an end-of-stream error reporting bytes
obtained versus required.  The stream is abstract: `read` is any function
from a stream state and a byte count to a chunk and a new state. -/
def readExactAux {σ : Type} (read : σ → Nat → List Nat × σ) (s : σ)
    (buf : List Nat) (n : Nat) : Except EofError (List Nat × σ) :=
  if hdone : n ≤ buf.length then .ok (buf, s)
  else
    let chunk := (read s (n - buf.length)).1
    if hc : chunk = [] then .error ⟨buf.length, n⟩
    else readExactAux read (read s (n - buf.length)).2 (buf ++ chunk) n
termination_by n - buf.length
decreasing_by
  have hlen : 0 < ((read s (n - buf.length)).1).length := List.length_pos.mpr hc
  simp only [List.length_append]
  omega

/-- Modelled from the spec: `_read_exact` starts from an empty buffer
(and, per §4.1, returns immediately when `n = 0`). -/
def read_exact {σ : Type} (read : σ → Nat → List Nat × σ) (s : σ) (n : Nat) :
    Except EofError (List Nat × σ) :=
  readExactAux read s [] n

theorem read_exact_zero {σ : Type} (read : σ → Nat → List Nat × σ) (s : σ) :
    read_exact read s 0 = .ok ([], s) := by
  unfold read_exact
  rw [readExactAux.eq_def]
  simp

theorem srsRead_chunk_len {s : ShortReadStream} {n : Nat} (hpos : s.pos ≤ s.data.length) :
    ((srsRead s n).1).length = min n (min (s.data.length - s.pos) s.chunkSize) := by
  unfold srsRead
  simp only [List.length_take, List.length_drop]
  omega

theorem readExactAux_srs (k : Nat) :
    ∀ (s : ShortReadStream) (buf : List Nat) (n : Nat),
      1 ≤ s.chunkSize → s.pos ≤ s.data.length →
      n ≤ buf.length + (s.data.length - s.pos) → k = n - buf.length →
      readExactAux srsRead s buf n
        = .ok (buf ++ (s.data.drop s.pos).take (n - buf.length),
            { s with pos := s.pos + (n - buf.length) }) := by
  induction k using Nat.strong_induction_on with
  | _ k ih =>
    intro s buf n hc hpos hn hk
    rw [readExactAux.eq_def]
    by_cases hdone : n ≤ buf.length
    · rw [dif_pos hdone]
      have h0 : n - buf.length = 0 := by omega
      rw [h0]
      simp
    · rw [dif_neg hdone]
      set m := n - buf.length with hm
      set t := min m (min (s.data.length - s.pos) s.chunkSize) with ht
      have hm1 : 1 ≤ m := by omega
      have hrem : m ≤ s.data.length - s.pos := by omega
      have ht1 : 1 ≤ t := by omega
      have htm : t ≤ m := by omega
      have htr : t ≤ s.data.length - s.pos := by omega
      have hchunk1 : (srsRead s m).1 = (s.data.drop s.pos).take t := by
        unfold srsRead
        rfl
      have hchunklen : ((srsRead s m).1).length = t := by
        rw [hchunk1]
        simp only [List.length_take, List.length_drop]
        omega
      have hne : ¬ (srsRead s m).1 = [] := by
        intro he
        rw [he] at hchunklen
        simp at hchunklen
        omega
      rw [dif_neg hne]
      have hs2 : (srsRead s m).2 = { s with pos := s.pos + t } := by
        unfold srsRead
        rfl
      rw [hs2]
      have hrec := ih (n - (buf ++ (srsRead s m).1).length)
        (by simp only [List.length_append, hchunklen]; omega)
        { s with pos := s.pos + t } (buf ++ (srsRead s m).1) n hc
        (by simp only; omega)
        (by simp only [List.length_append, hchunklen]; omega)
        rfl
      rw [hrec]
      simp only [List.length_append, hchunklen]
      have hpos2 : s.pos + t + (n - (buf.length + t)) = s.pos + m := by omega
      have hlist : (buf ++ (srsRead s m).1) ++
          ((s.data.drop (s.pos + t)).take (n - (buf.length + t)))
          = buf ++ (s.data.drop s.pos).take m := by
        rw [hchunk1, List.append_assoc]
        have hdd : s.data.drop (s.pos + t) = (s.data.drop s.pos).drop t := by
          rw [List.drop_drop]
        rw [hdd]
        have : n - (buf.length + t) = m - t := by omega
        rw [this]
        have : (s.data.drop s.pos).take t ++ ((s.data.drop s.pos).drop t).take (m - t)
            = (s.data.drop s.pos).take (t + (m - t)) := by
          rw [List.take_add]
        rw [this]
        have : t + (m - t) = m := by omega
        rw [this]
      rw [hpos2]
      rw [show (buf ++ (srsRead s m).1) ++
          ((s.data.drop (s.pos + t)).take (n - (buf.length + t)))
          = buf ++ (s.data.drop s.pos).take m from hlist]

theorem readExactAux_srs_eof (k : Nat) :
    ∀ (s : ShortReadStream) (buf : List Nat) (n : Nat),
      1 ≤ s.chunkSize → s.pos ≤ s.data.length →
      buf.length + (s.data.length - s.pos) < n → k = s.data.length - s.pos →
      readExactAux srsRead s buf n
        = .error ⟨buf.length + (s.data.length - s.pos), n⟩ := by
  induction k using Nat.strong_induction_on with
  | _ k ih =>
    intro s buf n hc hpos hn hk
    rw [readExactAux.eq_def]
    rw [dif_neg (by omega)]
    set m := n - buf.length with hm
    set avail := s.data.length - s.pos with hav
    by_cases hz : avail = 0
    · have hchunk : (srsRead s m).1 = [] := by
        unfold srsRead
        have : s.data.length - s.pos = 0 := hz
        simp [this]
      rw [dif_pos hchunk]
      simp [hz]
    · set t := min m (min avail s.chunkSize) with ht
      have hm1 : 1 ≤ m := by omega
      have ht1 : 1 ≤ t := by omega
      have hta : t ≤ avail := by omega
      have hchunk1 : (srsRead s m).1 = (s.data.drop s.pos).take t := by
        unfold srsRead
        rfl
      have hchunklen : ((srsRead s m).1).length = t := by
        rw [hchunk1]
        simp only [List.length_take, List.length_drop]
        omega
      have hne : ¬ (srsRead s m).1 = [] := by
        intro he
        rw [he] at hchunklen
        simp at hchunklen
        omega
      rw [dif_neg hne]
      have hs2 : (srsRead s m).2 = { s with pos := s.pos + t } := by
        unfold srsRead
        rfl
      rw [hs2]
      have hrec := ih (s.data.length - (s.pos + t)) (by omega)
        { s with pos := s.pos + t } (buf ++ (srsRead s m).1) n hc
        (by show s.pos + t ≤ s.data.length; omega)
        (by show (buf ++ (srsRead s m).1).length + (s.data.length - (s.pos + t)) < n
            simp only [List.length_append, hchunklen]
            omega)
        rfl
      rw [hrec]
      simp only [List.length_append, hchunklen]
      have : buf.length + t + (s.data.length - (s.pos + t)) = buf.length + avail := by
        omega
      rw [this]

/-! ## Message writer and reader -/

/-- Header characters for a body of `n` bytes: the f-string
`Content-Length: n\r\n\r\n`. -/
def headerChars (n : Nat) : List Char :=
  "Content-Length: ".data ++ natToChars n ++ ['\r', '\n', '\r', '\n']

/-- Modelled from the spec: the Message Writer of the `copilot.jsonrpc`
client is not in the source tree; §4.3 of the specification says:
serialize to a compact UTF-8 JSON byte sequence, compute its byte length
`N` after encoding, emit `Content-Length: N\r\n\r\n`, then emit the `N`
body bytes, and nothing else. -/
def writeMessage (v : JsonValue) : List Nat :=
  utf8Encode (headerChars (utf8Encode (dumps v)).length) ++ utf8Encode (dumps v)

/-- Errors of the framing reader, following the spec's taxonomy (§7):
end-of-stream (at the header stage, or mid-body with the shortfall
reported), malformed header (carrying the offending line), and
UTF-8/JSON decode errors. -/
inductive RpcError where
  | endOfStreamHeader : RpcError
  | endOfStreamBody (got required : Nat) : RpcError
  | malformedHeader (line : List Nat) : RpcError
  | decodeError : RpcError
deriving DecidableEq

/-- ASCII whitespace bytes stripped by Python's `bytes.strip()`. -/
def isWsByte (b : Nat) : Prop := b = 32 ∨ b = 9 ∨ b = 10 ∨ b = 13 ∨ b = 11 ∨ b = 12

instance (b : Nat) : Decidable (isWsByte b) := by unfold isWsByte; infer_instance

/-- Python `bytes.strip()`: drop whitespace from both ends. -/
def stripBytes (l : List Nat) : List Nat :=
  (((l.dropWhile (fun b => decide (isWsByte b))).reverse.dropWhile
    (fun b => decide (isWsByte b))).reverse)

/-- Is `b` the byte of a decimal digit? -/
def isDigitByte (b : Nat) : Prop := 48 ≤ b ∧ b ≤ 57

instance (b : Nat) : Decidable (isDigitByte b) := by unfold isDigitByte; infer_instance

/-- Value of a byte string of decimal digits. -/
def bytesToNat (l : List Nat) : Nat := l.foldl (fun a b => a * 10 + (b - 48)) 0

/-- Does the token appear verbatim at the front?  Returns the remainder
(byte-string version of `stripToken`). -/
def stripTokenBytes : List Nat → List Nat → Option (List Nat)
  | [], l => some l
  | _ :: _, [] => none
  | t :: ts, b :: bs => if b = t then stripTokenBytes ts bs else none

/-- Modelled from the spec: header parsing of the Message Reader (§4.2
step 2): a case-sensitive `Content-Length:` match, then the decimal
integer after the colon with surrounding whitespace trimmed; any other
shape is a malformed header. -/
def parseContentLength (line : List Nat) : Option Nat :=
  match stripTokenBytes (utf8Encode "Content-Length:".data) line with
  | none => none
  | some rest =>
    if stripBytes rest ≠ [] ∧ ∀ b ∈ stripBytes rest, isDigitByte b then
      some (bytesToNat (stripBytes rest))
    else none

/-- Modelled from the spec: the Message Reader `_read_message` of the
`copilot.jsonrpc` client (§4.2): read the header line (immediate EOF is
an end-of-stream error), parse `Content-Length:`, read and discard the
blank separator line, exact-read the `N` body bytes, UTF-8-decode and
JSON-parse them; decode failures propagate as errors. -/
def readMessage (s : ShortReadStream) : Except RpcError (JsonValue × ShortReadStream) :=
  if (srsReadline s).1 = [] then .error .endOfStreamHeader
  else
    match parseContentLength ((srsReadline s).1) with
    | none => .error (.malformedHeader ((srsReadline s).1))
    | some n =>
      match read_exact srsRead ((srsReadline ((srsReadline s).2)).2) n with
      | .error e => .error (.endOfStreamBody e.got e.required)
      | .ok (body, s3) =>
        match utf8Decode body with
        | none => .error .decodeError
        | some text =>
          match loads text with
          | none => .error .decodeError
          | some v => .ok (v, s3)

/-! ## The server dispatch-loop reader

Translated from the read side of the `while True` loop in `main` of
`src/dnalang/mcp-server/nclm_mcp_server.py`: read a header line (break on
EOF), skip lines that are blank after stripping, and on a
`Content-Length:` line parse `int(header.decode().split(':')[1].strip())`,
discard the next line, read the body and `json.loads` it.  A non-blank
line that does not start with `Content-Length:` falls through the `if`
and the loop silently continues with the next line.  Any exception is
caught by the surrounding `except`, which logs and breaks; those paths
return `none` here.  `await reader.read(n)` on the fully buffered stream
is modelled as returning the remaining bytes up to `n`. -/

/-- ASCII whitespace characters of Python's `str.strip()`. -/
def isWsChar (c : Char) : Prop :=
  c = ' ' ∨ c = '\t' ∨ c = '\n' ∨ c = '\r' ∨ c.toNat = 11 ∨ c.toNat = 12

instance (c : Char) : Decidable (isWsChar c) := by unfold isWsChar; infer_instance

/-- Python `str.strip()`. -/
def stripChars (l : List Char) : List Char :=
  (((l.dropWhile (fun c => decide (isWsChar c))).reverse.dropWhile
    (fun c => decide (isWsChar c))).reverse)

/-- `header.decode().split(':')[1]`: the segment after the first colon and
before the next one; `none` when there is no colon (an `IndexError` in the
source, caught by its `except`). -/
def splitColonSecond (cs : List Char) : Option (List Char) :=
  match cs.dropWhile (fun c => decide (c ≠ ':')) with
  | [] => none
  | _ :: r => some (r.takeWhile (fun c => decide (c ≠ ':')))

/-- Value of a digit-character string. -/
def charsToNat (l : List Char) : Nat := l.foldl (fun a c => a * 10 + (c.toNat - 48)) 0

/-- `await reader.read(n)` over the fully buffered remaining input:
returns the remaining bytes, at most `n`. -/
def bufRead (s : ShortReadStream) (n : Nat) : List Nat × ShortReadStream :=
  ((s.data.drop s.pos).take (min n (s.data.length - s.pos)),
    { s with pos := s.pos + min n (s.data.length - s.pos) })

theorem srsReadline_data (s : ShortReadStream) : (srsReadline s).2.data = s.data := by
  unfold srsReadline
  cases h : (s.data.drop s.pos).findIdx? (· == 10) <;> simp

theorem srsReadline_advance {s : ShortReadStream} (h : (srsReadline s).1 ≠ []) :
    s.pos < (srsReadline s).2.pos ∧ (srsReadline s).2.pos ≤ s.data.length := by
  unfold srsReadline at h ⊢
  cases hidx : (s.data.drop s.pos).findIdx? (· == 10) with
  | some i =>
    rw [hidx] at h
    simp only
    have hlt : i < (s.data.drop s.pos).length := by
      have := List.findIdx?_eq_some_iff_findIdx_eq.mp hidx
      exact this.1
    simp only [List.length_drop] at hlt
    constructor
    · omega
    · omega
  | none =>
    rw [hidx] at h
    simp only
    have hne : s.data.drop s.pos ≠ [] := h
    have : s.pos < s.data.length := by
      by_contra hge
      push_neg at hge
      rw [List.drop_eq_nil_of_le hge] at hne
      exact hne rfl
    omega

/-- Handling of one `Content-Length:` header line by the server loop:
decode the header, take `split(':')[1].strip()`, parse the integer,
discard the next line, read and JSON-parse the body.  `none` models an
exception reaching the loop's `except` (which logs and breaks). -/
def serverHandleHeader (header : List Nat) (s1 : ShortReadStream) :
    Option (JsonValue × ShortReadStream) :=
  match utf8Decode header with
  | none => none
  | some htext =>
    match splitColonSecond htext with
    | none => none
    | some seg =>
      if stripChars seg ≠ [] ∧ ∀ c ∈ stripChars seg, isDigitChar c then
        match utf8Decode ((bufRead ((srsReadline s1).2) (charsToNat (stripChars seg))).1) with
        | none => none
        | some btext =>
          match loads btext with
          | none => none
          | some v =>
            some (v, (bufRead ((srsReadline s1).2) (charsToNat (stripChars seg))).2)
      else none

/-- One pass of the server loop's read side: the next successfully parsed
request, or `none` when the loop breaks (EOF or a caught exception). -/
def serverNextRequest (s : ShortReadStream) : Option (JsonValue × ShortReadStream) :=
  if h1 : (srsReadline s).1 = [] then none
  else if h2 : stripBytes ((srsReadline s).1) = [] then
    serverNextRequest ((srsReadline s).2)
  else
    match stripTokenBytes (utf8Encode "Content-Length:".data) ((srsReadline s).1) with
    | some _ => serverHandleHeader ((srsReadline s).1) ((srsReadline s).2)
    | none => serverNextRequest ((srsReadline s).2)
termination_by s.data.length - s.pos
decreasing_by
  · have h := srsReadline_advance h1
    rw [srsReadline_data]
    omega
  · have h := srsReadline_advance h1
    rw [srsReadline_data]
    omega

/-! ## Framing round-trip: supporting lemmas -/

theorem utf8Encode_append (a b : List Char) :
    utf8Encode (a ++ b) = utf8Encode a ++ utf8Encode b := by
  induction a with
  | nil => rfl
  | cons c cs ih =>
    show utf8EncodeChar c ++ utf8Encode (cs ++ b)
      = (utf8EncodeChar c ++ utf8Encode cs) ++ utf8Encode b
    rw [ih, List.append_assoc]

theorem utf8Encode_ascii (l : List Char) (h : ∀ c ∈ l, c.toNat < 128) :
    utf8Encode l = l.map Char.toNat := by
  induction l with
  | nil => rfl
  | cons c cs ih =>
    simp only [utf8Encode, List.map_cons]
    rw [show utf8EncodeChar c = [c.toNat] from by
      unfold utf8EncodeChar
      rw [if_pos (h c (by simp))]]
    rw [ih (fun x hx => h x (by simp [hx]))]
    rfl

theorem digit_map_toNat (ds : List Nat) (h : ∀ d ∈ ds, d < 10) :
    (ds.map digitChar).map Char.toNat = ds.map (fun d => 48 + d) := by
  induction ds with
  | nil => rfl
  | cons d ds ih =>
    simp only [List.map_cons, List.cons.injEq]
    constructor
    · exact digitChar_toNat (h d (by simp))
    · exact ih (fun x hx => h x (by simp [hx]))

theorem bytesToNat_digits (ds : List Nat) :
    ∀ acc, (ds.map (fun d => 48 + d)).foldl (fun a b => a * 10 + (b - 48)) acc
      = ds.foldl (fun a d => a * 10 + d) acc := by
  induction ds with
  | nil => intro acc; rfl
  | cons d ds ih =>
    intro acc
    simp only [List.map_cons, List.foldl_cons]
    rw [show 48 + d - 48 = d from by omega]
    exact ih _

/-- The decimal digit bytes of `n`, with the facts the header proof needs. -/
theorem natBytes_spec (n : Nat) :
    ∃ D : List Nat, (natToChars n).map Char.toNat = D ∧ D ≠ [] ∧
      (∀ b ∈ D, isDigitByte b) ∧ bytesToNat D = n ∧
      (∀ c ∈ natToChars n, c.toNat < 128) := by
  obtain ⟨ds, hds, hne, hlt, hval⟩ := natToChars_spec n
  refine ⟨ds.map (fun d => 48 + d), ?_, ?_, ?_, ?_, ?_⟩
  · rw [hds]
    exact digit_map_toNat ds hlt
  · simp [hne]
  · intro b hb
    simp only [List.mem_map] at hb
    obtain ⟨d, hd, rfl⟩ := hb
    have := hlt d hd
    unfold isDigitByte
    omega
  · unfold bytesToNat
    rw [bytesToNat_digits ds 0, hval]
  · intro c hc
    rw [hds] at hc
    simp only [List.mem_map] at hc
    obtain ⟨d, hd, rfl⟩ := hc
    rw [digitChar_toNat (hlt d hd)]
    have := hlt d hd
    omega

theorem stripTokenBytes_self (ts : List Nat) :
    ∀ rest, stripTokenBytes ts (ts ++ rest) = some rest := by
  induction ts with
  | nil => intro rest; rfl
  | cons t ts ih =>
    intro rest
    simp only [List.cons_append, stripTokenBytes, if_true]
    exact ih rest

theorem dropWhile_ws_append (a l : List Nat) (ha : ∀ b ∈ a, isWsByte b) :
    (a ++ l).dropWhile (fun b => decide (isWsByte b))
      = l.dropWhile (fun b => decide (isWsByte b)) := by
  induction a with
  | nil => rfl
  | cons x a ih =>
    simp only [List.cons_append, List.dropWhile_cons]
    rw [if_pos (by simp [ha x (by simp)])]
    exact ih (fun b hb => ha b (by simp [hb]))

theorem dropWhile_digit_head (d : Nat) (l : List Nat) (hd : isDigitByte d) :
    (d :: l).dropWhile (fun b => decide (isWsByte b)) = d :: l := by
  simp only [List.dropWhile_cons]
  rw [if_neg (by simp; unfold isDigitByte at hd; unfold isWsByte; omega)]

/-- Stripping the header tail ` D\r\n` (a space, digits, CRLF) leaves the
digits. -/
theorem stripBytes_digits (D : List Nat) (hne : D ≠ [])
    (hdig : ∀ b ∈ D, isDigitByte b) :
    stripBytes (32 :: (D ++ [13, 10])) = D := by
  unfold stripBytes
  match D, hne with
  | d :: D1, _ =>
    rw [show (32 : Nat) :: (d :: D1 ++ [13, 10]) = [32] ++ (d :: (D1 ++ [13, 10])) from by
      simp]
    rw [dropWhile_ws_append [32] _ (by
      intro b hb
      simp at hb
      subst hb
      unfold isWsByte
      omega)]
    rw [dropWhile_digit_head d _ (hdig d (by simp))]
    rw [show (d :: (D1 ++ [13, 10])).reverse = [10, 13] ++ (d :: D1).reverse from by
      simp]
    rw [dropWhile_ws_append [10, 13] _ (by
      intro b hb
      simp at hb
      unfold isWsByte
      omega)]
    have hrev : ∃ e E, (d :: D1).reverse = e :: E ∧ isDigitByte e := by
      match hr : (d :: D1).reverse with
      | [] => simp at hr
      | e :: E =>
        refine ⟨e, E, rfl, ?_⟩
        have he : e ∈ (d :: D1).reverse := by rw [hr]; simp
        rw [List.mem_reverse] at he
        exact hdig e he
    obtain ⟨e, E, hr, he⟩ := hrev
    rw [hr, dropWhile_digit_head e E he, ← hr]
    simp

theorem findIdx_newline (line : List Nat) (r : List Nat)
    (hno : ∀ b ∈ line, b ≠ 10) :
    ∀ i, List.findIdx? (· == 10) (line ++ 10 :: r) i = some (i + line.length) := by
  induction line with
  | nil =>
    intro i
    simp [List.findIdx?_cons]
  | cons x l ih =>
    intro i
    simp only [List.cons_append, List.findIdx?_cons]
    rw [if_neg (by simp [hno x (by simp)])]
    rw [ih (fun b hb => hno b (by simp [hb])) (i + 1)]
    simp only [List.length_cons]
    congr 1
    omega

theorem srsReadline_spec {s : ShortReadStream} {line r : List Nat}
    (hno : ∀ b ∈ line, b ≠ 10) (hdrop : s.data.drop s.pos = line ++ 10 :: r) :
    (srsReadline s).1 = line ++ [10] ∧
      (srsReadline s).2 = { s with pos := s.pos + line.length + 1 } := by
  unfold srsReadline
  rw [hdrop, findIdx_newline line r hno 0]
  simp only [Nat.zero_add]
  constructor
  · rw [show line ++ 10 :: r = (line ++ [10]) ++ r from by simp]
    rw [show line.length + 1 = (line ++ [10]).length from by simp]
    exact List.take_left _ _
  · trivial

/-- Byte-level structure of a written message: the ASCII header prefix,
the decimal digits of the body's byte length, `\r\n\r\n`, then exactly the
body bytes. -/
theorem writeMessage_decomp (v : JsonValue) :
    ∃ D : List Nat,
      writeMessage v
        = ("Content-Length: ".data.map Char.toNat) ++ D ++ [13, 10, 13, 10]
            ++ utf8Encode (dumps v) ∧
      (natToChars (utf8Encode (dumps v)).length).map Char.toNat = D ∧
      D ≠ [] ∧ (∀ b ∈ D, isDigitByte b) ∧
      bytesToNat D = (utf8Encode (dumps v)).length := by
  obtain ⟨D, hD, hne, hdig, hval, hascii⟩ := natBytes_spec (utf8Encode (dumps v)).length
  refine ⟨D, ?_, hD, hne, hdig, hval⟩
  unfold writeMessage headerChars
  rw [utf8Encode_append, utf8Encode_append]
  rw [utf8Encode_ascii ("Content-Length: ".data) (by decide)]
  rw [utf8Encode_ascii _ hascii, hD]
  rw [show utf8Encode ['\r', '\n', '\r', '\n'] = [13, 10, 13, 10] from by decide]
  try simp [List.append_assoc]

/-- Reading a written message from the stream returns exactly the written
value and advances the cursor past exactly the message's bytes, for any
per-call chunk limit of at least one byte and any trailing data. -/
theorem readMessage_writeMessage (v : JsonValue) (s : ShortReadStream) (extra : List Nat)
    (hchunk : 1 ≤ s.chunkSize) (hpos : s.pos ≤ s.data.length)
    (hdrop : s.data.drop s.pos = writeMessage v ++ extra) :
    readMessage s = .ok (v, { s with pos := s.pos + (writeMessage v).length }) := by
  obtain ⟨D, hw, hD, hne, hdig, hval⟩ := writeMessage_decomp v
  obtain ⟨P, hP⟩ : ∃ P, "Content-Length: ".data.map Char.toNat = P := ⟨_, rfl⟩
  have hPno : ∀ b ∈ P, b ≠ 10 := by rw [← hP]; decide
  have hPsplit : P = utf8Encode ("Content-Length:".data) ++ [32] := by rw [← hP]; decide
  rw [hP] at hw
  have hheader : parseContentLength ((P ++ D ++ [13]) ++ [10])
      = some (utf8Encode (dumps v)).length := by
    unfold parseContentLength
    rw [show (P ++ D ++ [13]) ++ [10]
        = utf8Encode ("Content-Length:".data) ++ (32 :: (D ++ [13, 10])) from by
      rw [hPsplit]
      simp]
    rw [stripTokenBytes_self]
    dsimp only
    rw [stripBytes_digits D hne hdig]
    rw [if_pos ⟨hne, hdig⟩, hval]
  have hsplit : s.data.drop s.pos
      = (P ++ D ++ [13]) ++ 10 :: ([13] ++ 10 :: (utf8Encode (dumps v) ++ extra)) := by
    rw [hdrop, hw]
    simp [List.append_assoc]
  have hnoL1 : ∀ b ∈ (P ++ D ++ [13]), b ≠ 10 := by
    intro b hb
    simp only [List.mem_append] at hb
    rcases hb with (hb | hb) | hb
    · exact hPno b hb
    · have := hdig b hb
      unfold isDigitByte at this
      omega
    · simp at hb
      omega
  have hrl1 := srsReadline_spec hnoL1 hsplit
  have hwlen : (writeMessage v).length
      = (P ++ D ++ [13]).length + 3 + (utf8Encode (dumps v)).length := by
    rw [hw]
    simp only [List.length_append, List.length_cons, List.length_nil]
    try omega
  have hlens : s.data.length - s.pos = (writeMessage v).length + extra.length := by
    have h := congrArg List.length hdrop
    simp only [List.length_drop, List.length_append] at h
    omega
  have hdrop2 : s.data.drop (s.pos + (P ++ D ++ [13]).length + 1)
      = [13] ++ 10 :: (utf8Encode (dumps v) ++ extra) := by
    rw [Nat.add_assoc, ← List.drop_drop, hsplit]
    have h1 : ((P ++ D ++ [13])) ++ 10 :: ([13] ++ 10 :: (utf8Encode (dumps v) ++ extra))
        = ((P ++ D ++ [13]) ++ [10]) ++ ([13] ++ 10 :: (utf8Encode (dumps v) ++ extra)) := by
      simp
    have h2 : (P ++ D ++ [13]).length + 1 = ((P ++ D ++ [13]) ++ [10]).length := by
      simp
      try omega
    rw [h1, h2, List.drop_left]
  have hrl2 := @srsReadline_spec { s with pos := s.pos + (P ++ D ++ [13]).length + 1 }
    [13] (utf8Encode (dumps v) ++ extra)
    (by intro b hb; simp at hb; omega) hdrop2
  have hS2 : (srsReadline { s with pos := s.pos + (P ++ D ++ [13]).length + 1 }).2
      = { s with pos := s.pos + (P ++ D ++ [13]).length + 3 } := by
    rw [hrl2.2]
    show ({ s with pos := s.pos + (P ++ D ++ [13]).length + 1 + 1 + 1 } :
      ShortReadStream) = _
    have harith : s.pos + (P ++ D ++ [13]).length + 1 + 1 + 1
        = s.pos + (P ++ D ++ [13]).length + 3 := by omega
    rw [harith]
  have hdrop3 : s.data.drop (s.pos + (P ++ D ++ [13]).length + 3)
      = utf8Encode (dumps v) ++ extra := by
    have hstep : s.pos + (P ++ D ++ [13]).length + 3
        = (s.pos + (P ++ D ++ [13]).length + 1) + 2 := by omega
    rw [hstep, ← List.drop_drop, hdrop2]
    rfl
  have hre := readExactAux_srs ((utf8Encode (dumps v)).length)
    { s with pos := s.pos + (P ++ D ++ [13]).length + 3 }
    [] ((utf8Encode (dumps v)).length) hchunk
    (by
      show s.pos + (P ++ D ++ [13]).length + 3 ≤ s.data.length
      omega)
    (by
      show (utf8Encode (dumps v)).length
        ≤ ([] : List Nat).length + (s.data.length - (s.pos + (P ++ D ++ [13]).length + 3))
      rw [show ([] : List Nat).length = 0 from rfl, Nat.zero_add]
      omega)
    rfl
  dsimp only at hre
  rw [show (utf8Encode (dumps v)).length - ([] : List Nat).length
      = (utf8Encode (dumps v)).length from rfl] at hre
  rw [hdrop3, List.take_left, List.nil_append] at hre
  have hnonempty : (P ++ D ++ [13] ++ [10]) ≠ [] := by simp
  have hfinal : s.pos + (P ++ D ++ [13]).length + 3 + (utf8Encode (dumps v)).length
      = s.pos + (writeMessage v).length := by omega
  unfold readMessage read_exact
  simp only [hrl1.1, hrl1.2, hS2, hheader, hre, utf8Decode_encode, loads_dumps,
    hnonempty, ne_eq, not_false_iff, hfinal]
  rw [if_neg not_false]

/-! ## Server-loop lemmas -/

theorem dropWhile_wsChar_append (a l : List Char) (ha : ∀ c ∈ a, isWsChar c) :
    (a ++ l).dropWhile (fun c => decide (isWsChar c))
      = l.dropWhile (fun c => decide (isWsChar c)) := by
  induction a with
  | nil => rfl
  | cons x a ih =>
    simp only [List.cons_append, List.dropWhile_cons]
    rw [if_pos (by simp [ha x (by simp)])]
    exact ih (fun c hc => ha c (by simp [hc]))

theorem isDigitChar_not_ws {c : Char} (hd : isDigitChar c) : ¬ isWsChar c := by
  intro hw
  unfold isDigitChar at hd
  rcases hw with h | h | h | h | h | h <;>
    first
      | (subst h; revert hd; decide)
      | (rw [h] at hd; omega)

theorem dropWhile_digitChar_head (d : Char) (l : List Char) (hd : isDigitChar d) :
    (d :: l).dropWhile (fun c => decide (isWsChar c)) = d :: l := by
  simp only [List.dropWhile_cons]
  rw [if_neg (by simp [isDigitChar_not_ws hd])]

/-- Stripping ` D\r\n` (space, digits, CRLF) leaves the digits. -/
theorem stripChars_digits (D : List Char) (hne : D ≠ [])
    (hdig : ∀ c ∈ D, isDigitChar c) :
    stripChars (' ' :: (D ++ ['\r', '\n'])) = D := by
  unfold stripChars
  match D, hne with
  | d :: D1, _ =>
    rw [show (' ' :: (d :: D1 ++ ['\r', '\n'])) = [' '] ++ (d :: (D1 ++ ['\r', '\n'])) from by
      simp]
    rw [dropWhile_wsChar_append [' '] _ (by
      intro c hc
      simp at hc
      subst hc
      unfold isWsChar
      simp)]
    rw [dropWhile_digitChar_head d _ (hdig d (by simp))]
    rw [show (d :: (D1 ++ ['\r', '\n'])).reverse = ['\n', '\r'] ++ (d :: D1).reverse from by
      simp]
    rw [dropWhile_wsChar_append ['\n', '\r'] _ (by
      intro c hc
      simp at hc
      unfold isWsChar
      rcases hc with h | h <;> simp [h])]
    have hrev : ∃ e E, (d :: D1).reverse = e :: E ∧ isDigitChar e := by
      match hr : (d :: D1).reverse with
      | [] => simp at hr
      | e :: E =>
        refine ⟨e, E, rfl, ?_⟩
        have he : e ∈ (d :: D1).reverse := by rw [hr]; simp
        rw [List.mem_reverse] at he
        exact hdig e he
    obtain ⟨e, E, hr, he⟩ := hrev
    rw [hr, dropWhile_digitChar_head e E he, ← hr]
    simp

theorem stripBytes_all_ws (l : List Nat) (h : ∀ x ∈ l, isWsByte x) :
    stripBytes l = [] := by
  unfold stripBytes
  rw [show l = l ++ [] from by simp, dropWhile_ws_append l [] h]
  rfl

theorem charsToNat_digits (ds : List Nat) (h : ∀ d ∈ ds, d < 10) :
    ∀ acc, (ds.map digitChar).foldl (fun a c => a * 10 + (c.toNat - 48)) acc
      = ds.foldl (fun a d => a * 10 + d) acc := by
  induction ds with
  | nil => intro acc; rfl
  | cons d ds ih =>
    intro acc
    simp only [List.map_cons, List.foldl_cons]
    rw [digitChar_toNat (h d (by simp))]
    rw [show acc * 10 + (48 + d - 48) = acc * 10 + d from by omega]
    exact ih (fun x hx => h x (by simp [hx])) _

theorem charsToNat_natToChars (n : Nat) : charsToNat (natToChars n) = n := by
  obtain ⟨ds, hds, -, hlt, hval⟩ := natToChars_spec n
  unfold charsToNat
  rw [hds, charsToNat_digits ds hlt 0, hval]

theorem takeWhile_all {α : Type} (p : α → Bool) (l : List α)
    (h : ∀ x ∈ l, p x = true) : l.takeWhile p = l := by
  induction l with
  | nil => rfl
  | cons x l ih =>
    simp only [List.takeWhile_cons]
    rw [if_pos (h x (by simp))]
    rw [ih (fun y hy => h y (by simp [hy]))]

theorem dropWhile_notColon_append (a l : List Char)
    (ha : ∀ c ∈ a, c ≠ ':') :
    (a ++ l).dropWhile (fun c => decide (c ≠ ':'))
      = l.dropWhile (fun c => decide (c ≠ ':')) := by
  induction a with
  | nil => rfl
  | cons x a ih =>
    simp only [List.cons_append, List.dropWhile_cons]
    rw [if_pos (by simp [ha x (by simp)])]
    exact ih (fun c hc => ha c (by simp [hc]))

/-- `split(':')[1]` of the decoded header: the text between the first
colon and the end (there is no second colon). -/
theorem splitColonSecond_header (rest : List Char) (hnc : ∀ c ∈ rest, c ≠ ':') :
    splitColonSecond ("Content-Length:".data ++ rest) = some rest := by
  unfold splitColonSecond
  have hsplit : ("Content-Length:".data ++ rest)
      = "Content-Length".data ++ (':' :: rest) := by
    rw [show "Content-Length:".data = "Content-Length".data ++ [':'] from by decide]
    simp
  rw [hsplit]
  rw [dropWhile_notColon_append _ _ (by decide)]
  rw [show (':' :: rest).dropWhile (fun c => decide (c ≠ ':')) = ':' :: rest from by
    simp only [List.dropWhile_cons]
    rw [if_neg (by simp)]]
  show some (rest.takeWhile (fun c => decide (c ≠ ':'))) = some rest
  rw [takeWhile_all _ rest (fun c hc => by simp [hnc c hc])]

theorem natToChars_ne_nil (n : Nat) : natToChars n ≠ [] := by
  obtain ⟨ds, hds, hne, -, -⟩ := natToChars_spec n
  rw [hds]
  simp [hne]

theorem natToChars_digits (n : Nat) : ∀ c ∈ natToChars n, isDigitChar c := by
  obtain ⟨ds, hds, -, hlt, -⟩ := natToChars_spec n
  rw [hds]
  intro c hc
  simp only [List.mem_map] at hc
  obtain ⟨d, hd, rfl⟩ := hc
  exact isDigitChar_digitChar (hlt d hd)

theorem natToChars_no_colon (n : Nat) : ∀ c ∈ natToChars n, c ≠ ':' := by
  intro c hc heq
  have h := natToChars_digits n c hc
  rw [heq] at h
  exact absurd h (by decide)

theorem natToChars_ascii (n : Nat) : ∀ c ∈ natToChars n, c.toNat < 128 := by
  intro c hc
  have h := natToChars_digits n c hc
  unfold isDigitChar at h
  omega

theorem mem_dropWhile_of_mem {α : Type} (p : α → Bool) (l : List α) (b : α)
    (hb : b ∈ l) (hnp : p b = false) : b ∈ l.dropWhile p := by
  induction l with
  | nil => simp at hb
  | cons y t ih =>
    rw [List.dropWhile_cons]
    cases hp : p y with
    | true =>
      rw [if_pos rfl]
      rcases List.mem_cons.mp hb with rfl | hb2
      · rw [hnp] at hp
        exact Bool.noConfusion hp
      · exact ih hb2
    | false =>
      rw [if_neg (by simp)]
      exact hb

theorem dropWhile_nil_forall {α : Type} (p : α → Bool) (l : List α)
    (h : l.dropWhile p = []) : ∀ x ∈ l, p x = true := by
  induction l with
  | nil => simp
  | cons y t ih =>
    rw [List.dropWhile_cons] at h
    cases hp : p y with
    | true =>
      rw [hp, if_pos rfl] at h
      intro x hx
      rcases List.mem_cons.mp hx with rfl | hx2
      · exact hp
      · exact ih h x hx2
    | false =>
      rw [hp, if_neg (by simp)] at h
      simp at h

theorem stripBytes_ne_nil (l : List Nat) (b : Nat) (hb : b ∈ l)
    (hnw : ¬ isWsByte b) : stripBytes l ≠ [] := by
  unfold stripBytes
  intro h
  rw [List.reverse_eq_nil_iff] at h
  have h2 := dropWhile_nil_forall _ _ h
  have hb1 : b ∈ (l.dropWhile (fun x => decide (isWsByte x))).reverse := by
    rw [List.mem_reverse]
    exact mem_dropWhile_of_mem _ l b hb (by simp [hnw])
  have h3 := h2 b hb1
  simp [hnw] at h3

/-- The server loop's header handling, applied to the header line of a
correctly written message: it extracts the declared byte length, discards
the following blank line, reads exactly the body bytes and parses them
back to the written value, advancing past exactly the message's bytes. -/
theorem serverHandleHeader_ok (v : JsonValue) (header : List Nat)
    (s1 : ShortReadStream) (extra : List Nat)
    (hheader : utf8Decode header
      = some ("Content-Length: ".data ++ (natToChars (utf8Encode (dumps v)).length
          ++ ['\r', '\n'])))
    (hdrop : s1.data.drop s1.pos = [13] ++ 10 :: (utf8Encode (dumps v) ++ extra)) :
    serverHandleHeader header s1
      = some (v, { s1 with pos := s1.pos + 2 + (utf8Encode (dumps v)).length }) := by
  have hsplit0 : "Content-Length: ".data
        ++ (natToChars (utf8Encode (dumps v)).length ++ ['\r', '\n'])
      = "Content-Length:".data
        ++ (' ' :: (natToChars (utf8Encode (dumps v)).length ++ ['\r', '\n'])) := by
    rw [show "Content-Length: ".data = "Content-Length:".data ++ [' '] from by decide]
    simp
  have hnc : ∀ c ∈ (' ' :: (natToChars (utf8Encode (dumps v)).length ++ ['\r', '\n'])),
      c ≠ ':' := by
    intro c hc
    rcases List.mem_cons.mp hc with rfl | hc
    · decide
    · rcases List.mem_append.mp hc with hc | hc
      · exact natToChars_no_colon _ c hc
      · simp at hc
        rcases hc with rfl | rfl <;> decide
  have hstrip : stripChars (' ' :: (natToChars (utf8Encode (dumps v)).length ++ ['\r', '\n']))
      = natToChars (utf8Encode (dumps v)).length :=
    stripChars_digits _ (natToChars_ne_nil _) (natToChars_digits _)
  have hcond : natToChars (utf8Encode (dumps v)).length ≠ [] ∧
      ∀ c ∈ natToChars (utf8Encode (dumps v)).length, isDigitChar c :=
    ⟨natToChars_ne_nil _, natToChars_digits _⟩
  have hrl := @srsReadline_spec s1 [13] (utf8Encode (dumps v) ++ extra)
    (by intro b hb; simp at hb; omega) hdrop
  have hS : (srsReadline s1).2 = { s1 with pos := s1.pos + 2 } := by
    rw [hrl.2]
    rfl
  have hdrop2 : s1.data.drop (s1.pos + 2) = utf8Encode (dumps v) ++ extra := by
    rw [← List.drop_drop, hdrop]
    rfl
  have hlen : s1.data.length - (s1.pos + 2)
      = (utf8Encode (dumps v)).length + extra.length := by
    have h := congrArg List.length hdrop2
    simp only [List.length_drop, List.length_append] at h
    omega
  have hmin : min (utf8Encode (dumps v)).length (s1.data.length - (s1.pos + 2))
      = (utf8Encode (dumps v)).length := by omega
  have hbuf : bufRead { s1 with pos := s1.pos + 2 } (utf8Encode (dumps v)).length
      = (utf8Encode (dumps v),
          { s1 with pos := s1.pos + 2 + (utf8Encode (dumps v)).length }) := by
    unfold bufRead
    dsimp only
    rw [hmin, hdrop2, List.take_left]
  unfold serverHandleHeader
  rw [hheader]
  dsimp only
  rw [hsplit0, splitColonSecond_header _ hnc]
  dsimp only
  rw [hstrip]
  rw [if_pos hcond]
  rw [charsToNat_natToChars, hS, hbuf]
  dsimp only
  rw [utf8Decode_encode]
  dsimp only
  rw [loads_dumps]

/-- One pass of the server loop starting exactly at a written message:
it returns the written value and consumes exactly the message's bytes. -/
theorem serverNextRequest_writeMessage (v : JsonValue) (s : ShortReadStream)
    (extra : List Nat)
    (hdrop : s.data.drop s.pos = writeMessage v ++ extra) :
    serverNextRequest s
      = some (v, { s with pos := s.pos + (writeMessage v).length }) := by
  obtain ⟨D, hw, hD, hne, hdig, hval⟩ := writeMessage_decomp v
  obtain ⟨P, hP⟩ : ∃ P, "Content-Length: ".data.map Char.toNat = P := ⟨_, rfl⟩
  have hPno : ∀ b ∈ P, b ≠ 10 := by rw [← hP]; decide
  have hPsplit : P = utf8Encode ("Content-Length:".data) ++ [32] := by rw [← hP]; decide
  rw [hP] at hw
  have hsplit : s.data.drop s.pos
      = (P ++ D ++ [13]) ++ 10 :: ([13] ++ 10 :: (utf8Encode (dumps v) ++ extra)) := by
    rw [hdrop, hw]
    simp [List.append_assoc]
  have hnoL1 : ∀ b ∈ (P ++ D ++ [13]), b ≠ 10 := by
    intro b hb
    simp only [List.mem_append] at hb
    rcases hb with (hb | hb) | hb
    · exact hPno b hb
    · have := hdig b hb
      unfold isDigitByte at this
      omega
    · simp at hb
      omega
  have hrl1 := srsReadline_spec hnoL1 hsplit
  have hne1 : (srsReadline s).1 ≠ [] := by
    rw [hrl1.1]
    simp
  have h67 : (67 : Nat) ∈ (srsReadline s).1 := by
    rw [hrl1.1]
    have h1 : (67 : Nat) ∈ P := by rw [← hP]; decide
    simp [h1]
  have hsne : stripBytes ((srsReadline s).1) ≠ [] :=
    stripBytes_ne_nil _ 67 h67 (by decide)
  have htok : stripTokenBytes (utf8Encode "Content-Length:".data) ((srsReadline s).1)
      = some (32 :: (D ++ [13, 10])) := by
    rw [hrl1.1]
    rw [show (P ++ D ++ [13]) ++ [10]
        = utf8Encode ("Content-Length:".data) ++ (32 :: (D ++ [13, 10])) from by
      rw [hPsplit]
      simp]
    exact stripTokenBytes_self _ _
  have hwlen : (writeMessage v).length
      = (P ++ D ++ [13]).length + 3 + (utf8Encode (dumps v)).length := by
    rw [hw]
    simp only [List.length_append, List.length_cons, List.length_nil]
    try omega
  have hdrop2 : s.data.drop (s.pos + (P ++ D ++ [13]).length + 1)
      = [13] ++ 10 :: (utf8Encode (dumps v) ++ extra) := by
    rw [Nat.add_assoc, ← List.drop_drop, hsplit]
    have h1 : (P ++ D ++ [13]) ++ 10 :: ([13] ++ 10 :: (utf8Encode (dumps v) ++ extra))
        = ((P ++ D ++ [13]) ++ [10]) ++ ([13] ++ 10 :: (utf8Encode (dumps v) ++ extra)) := by
      simp
    have h2 : (P ++ D ++ [13]).length + 1 = ((P ++ D ++ [13]) ++ [10]).length := by
      simp
      try omega
    rw [h1, h2, List.drop_left]
  have hhead : (P ++ D ++ [13]) ++ [10]
      = utf8Encode ("Content-Length: ".data
          ++ (natToChars (utf8Encode (dumps v)).length ++ ['\r', '\n'])) := by
    rw [utf8Encode_append, utf8Encode_append]
    rw [utf8Encode_ascii ("Content-Length: ".data) (by decide)]
    rw [utf8Encode_ascii _ (natToChars_ascii _)]
    rw [hP, hD]
    rw [show utf8Encode ['\r', '\n'] = [13, 10] from by decide]
    simp
  have hheaderA : utf8Decode ((srsReadline s).1)
      = some ("Content-Length: ".data
          ++ (natToChars (utf8Encode (dumps v)).length ++ ['\r', '\n'])) := by
    rw [hrl1.1, hhead, utf8Decode_encode]
  have hhh := serverHandleHeader_ok v ((srsReadline s).1) ((srsReadline s).2) extra
    hheaderA
    (by
      rw [hrl1.2]
      dsimp only
      exact hdrop2)
  rw [serverNextRequest.eq_def]
  rw [dif_neg hne1, dif_neg hsne, htok]
  dsimp only
  rw [hhh, hrl1.2]
  dsimp only
  have harith : s.pos + (P ++ D ++ [13]).length + 1 + 2 + (utf8Encode (dumps v)).length
      = s.pos + (writeMessage v).length := by omega
  rw [harith]

/-- The server loop consumes a line that is blank after stripping and
continues with the next line. -/
theorem serverNextRequest_skip_blank (s : ShortReadStream) (w rest : List Nat)
    (hw : ∀ x ∈ w, isWsByte x ∧ x ≠ 10)
    (hdrop : s.data.drop s.pos = w ++ 10 :: rest) :
    serverNextRequest s = serverNextRequest { s with pos := s.pos + w.length + 1 } := by
  have hrl := srsReadline_spec (fun b hb => (hw b hb).2) hdrop
  have hblank : stripBytes ((srsReadline s).1) = [] := by
    rw [hrl.1]
    apply stripBytes_all_ws
    intro x hx
    rcases List.mem_append.mp hx with hx | hx
    · exact (hw x hx).1
    · simp at hx
      rw [hx]
      decide
  rw [serverNextRequest.eq_def]
  rw [dif_neg (by rw [hrl.1]; simp)]
  rw [dif_pos hblank, hrl.2]

/-- The bytes of a sequence of newline-terminated lines. -/
def blankBytes (ws : List (List Nat)) : List Nat :=
  ws.foldr (fun w acc => w ++ 10 :: acc) []

/-! ## The claims -/

/-- C1: Short-read invariance of the exact-read primitive.  For every
required count `n`, every stream holding at least `n` remaining bytes and
every per-call chunk-size limit of at least one byte, the exact-read
operation returns exactly the first `n` remaining bytes of the stream —
an expression independent of the chunk size — and advances the cursor by
exactly `n`. -/
theorem claim_C1 (s : ShortReadStream) (n : Nat)
    (hchunk : 1 ≤ s.chunkSize) (hpos : s.pos ≤ s.data.length)
    (havail : n ≤ s.data.length - s.pos) :
    read_exact srsRead s n
      = .ok ((s.data.drop s.pos).take n, { s with pos := s.pos + n }) := by
  have h := readExactAux_srs n s [] n hchunk hpos (by simpa using havail) (by simp)
  unfold read_exact
  rw [h]
  simp

theorem claim_C1_witness :
    read_exact srsRead { data := [5, 6, 7], chunkSize := 1, pos := 0 } 2
      = .ok ([5, 6], { data := [5, 6, 7], chunkSize := 1, pos := 2 }) :=
  claim_C1 _ 2 (by decide) (by decide) (by decide)

/-- C2: Round-trip.  For every JSON value `v`, writing `v` with the
message writer and reading the resulting bytes back with the message
reader yields exactly `v` (deep equality of the JSON trees) together with
the stream advanced past exactly the written bytes, for any per-call
chunk limit of at least one byte. -/
theorem claim_C2 (v : JsonValue) (s : ShortReadStream)
    (hchunk : 1 ≤ s.chunkSize) (hpos : s.pos ≤ s.data.length)
    (hdrop : s.data.drop s.pos = writeMessage v) :
    readMessage s = .ok (v, { s with pos := s.pos + (writeMessage v).length }) :=
  readMessage_writeMessage v s [] hchunk hpos (by rw [hdrop]; simp)

theorem claim_C2_witness :
    readMessage { data := writeMessage JsonValue.null, chunkSize := 1, pos := 0 }
      = .ok (JsonValue.null,
          { data := writeMessage JsonValue.null, chunkSize := 1,
            pos := 0 + (writeMessage JsonValue.null).length }) :=
  claim_C2 JsonValue.null _ (by decide) (Nat.zero_le _) rfl

/-- C3: End-of-stream failure of the exact-read primitive.  For every
required count `n` larger than the bytes remaining, the exact-read
operation fails with an end-of-stream error reporting the bytes actually
obtainable versus the bytes required; in particular it does not return a
truncated success, and (being a total function) it terminates. -/
theorem claim_C3 (s : ShortReadStream) (n : Nat)
    (hchunk : 1 ≤ s.chunkSize) (hpos : s.pos ≤ s.data.length)
    (hshort : s.data.length - s.pos < n) :
    read_exact srsRead s n = .error ⟨s.data.length - s.pos, n⟩ := by
  have h := readExactAux_srs_eof (s.data.length - s.pos) s [] n hchunk hpos
    (by simpa using hshort) rfl
  unfold read_exact
  rw [h]
  simp

theorem claim_C3_witness :
    read_exact srsRead { data := [1, 2], chunkSize := 8, pos := 0 } 5
      = .error ⟨2, 5⟩ :=
  claim_C3 _ 5 (by decide) (by decide) (by decide)

/-- C8: Zero-length edge case.  For every underlying read function and
every stream state, requesting zero bytes from the exact-read primitive
returns an empty byte sequence and the unchanged stream state; because
this holds uniformly in the read function, the result cannot depend on
any read call being issued. -/
theorem claim_C8 {σ : Type} (read : σ → Nat → List Nat × σ) (s : σ) :
    read_exact read s 0 = .ok ([], s) :=
  read_exact_zero read s

/-- C10: Invariant of the short-read simulation stream.  A single read
call returns exactly `min n (min remaining chunkSize)` bytes, those bytes
are the contiguous slice of the underlying data at the current cursor,
the data and chunk size are unchanged, the cursor advances by exactly the
number of bytes returned, never more than `n` bytes are returned, and the
bytes consumed so far extended by this read form a prefix of the data. -/
theorem claim_C10 (s : ShortReadStream) (n : Nat) :
    ((srsRead s n).1).length = min n (min (s.data.length - s.pos) s.chunkSize) ∧
    (srsRead s n).1 = (s.data.drop s.pos).take ((srsRead s n).1).length ∧
    (srsRead s n).2.data = s.data ∧
    (srsRead s n).2.chunkSize = s.chunkSize ∧
    (srsRead s n).2.pos = s.pos + ((srsRead s n).1).length ∧
    ((srsRead s n).1).length ≤ n ∧
    s.data.take s.pos ++ (srsRead s n).1 = s.data.take ((srsRead s n).2.pos) := by
  obtain ⟨k, hk⟩ : ∃ k, min n (min (s.data.length - s.pos) s.chunkSize) = k := ⟨_, rfl⟩
  have hread : (srsRead s n).1 = (s.data.drop s.pos).take k := by
    unfold srsRead
    dsimp only
    rw [hk]
  have hpos2 : (srsRead s n).2.pos = s.pos + k := by
    unfold srsRead
    dsimp only
    rw [hk]
  have hlen1 : ((srsRead s n).1).length = k := by
    rw [hread, List.length_take, List.length_drop]
    omega
  refine ⟨by rw [hlen1, hk], by rw [hlen1, hread], rfl, rfl,
    by rw [hpos2, hlen1], by rw [hlen1]; omega, ?_⟩
  rw [hread, hpos2, List.take_add]

/-- C4: Error propagation of the message reader.  Each failure mode of
the taxonomy surfaces as the corresponding distinct error value of the
read operation's result — end of stream at the header, malformed header,
end of stream inside the body (with got/required counts), UTF-8 decode
failure, JSON parse failure — and a successful result can arise only
when every stage succeeded; no failing stage yields a default or empty
success value.  (The modelled writer is total and has no failure paths.) -/
theorem claim_C4 (s : ShortReadStream) :
    ((srsReadline s).1 = [] → readMessage s = .error .endOfStreamHeader) ∧
    ((srsReadline s).1 ≠ [] → parseContentLength ((srsReadline s).1) = none →
      readMessage s = .error (.malformedHeader ((srsReadline s).1))) ∧
    (∀ n, (srsReadline s).1 ≠ [] → parseContentLength ((srsReadline s).1) = some n →
      ∀ e : EofError,
        read_exact srsRead ((srsReadline ((srsReadline s).2)).2) n = .error e →
        readMessage s = .error (.endOfStreamBody e.got e.required)) ∧
    (∀ n body s3, (srsReadline s).1 ≠ [] →
      parseContentLength ((srsReadline s).1) = some n →
      read_exact srsRead ((srsReadline ((srsReadline s).2)).2) n = .ok (body, s3) →
      utf8Decode body = none → readMessage s = .error .decodeError) ∧
    (∀ n body s3 text, (srsReadline s).1 ≠ [] →
      parseContentLength ((srsReadline s).1) = some n →
      read_exact srsRead ((srsReadline ((srsReadline s).2)).2) n = .ok (body, s3) →
      utf8Decode body = some text → loads text = none →
      readMessage s = .error .decodeError) ∧
    (∀ v s3, readMessage s = .ok (v, s3) →
      ∃ n body text, parseContentLength ((srsReadline s).1) = some n ∧
        read_exact srsRead ((srsReadline ((srsReadline s).2)).2) n = .ok (body, s3) ∧
        utf8Decode body = some text ∧ loads text = some v) := by
  refine ⟨?_, ?_, ?_, ?_, ?_, ?_⟩
  · intro h
    unfold readMessage
    rw [if_pos h]
  · intro hne hnone
    unfold readMessage
    rw [if_neg hne, hnone]
  · intro n hne hsome e herr
    unfold readMessage
    rw [if_neg hne, hsome]
    dsimp only
    rw [herr]
  · intro n body s3 hne hsome hre hud
    unfold readMessage
    rw [if_neg hne, hsome]
    dsimp only
    rw [hre]
    dsimp only
    rw [hud]
  · intro n body s3 text hne hsome hre hud hld
    unfold readMessage
    rw [if_neg hne, hsome]
    dsimp only
    rw [hre]
    dsimp only
    rw [hud]
    dsimp only
    rw [hld]
  · intro v s3 h
    unfold readMessage at h
    by_cases h1 : (srsReadline s).1 = []
    · rw [if_pos h1] at h
      simp at h
    · rw [if_neg h1] at h
      cases hpc : parseContentLength ((srsReadline s).1) with
      | none =>
        rw [hpc] at h
        simp at h
      | some n =>
        rw [hpc] at h
        dsimp only at h
        cases hre : read_exact srsRead ((srsReadline ((srsReadline s).2)).2) n with
        | error e =>
          rw [hre] at h
          simp at h
        | ok p =>
          obtain ⟨body, s3u⟩ := p
          rw [hre] at h
          dsimp only at h
          cases hud : utf8Decode body with
          | none =>
            rw [hud] at h
            simp at h
          | some text =>
            rw [hud] at h
            dsimp only at h
            cases hld : loads text with
            | none =>
              rw [hld] at h
              simp at h
            | some v2 =>
              rw [hld] at h
              dsimp only at h
              simp only [Except.ok.injEq, Prod.mk.injEq] at h
              obtain ⟨hv, hs⟩ := h
              subst hv
              subst hs
              exact ⟨n, body, text, rfl, hre, hud, hld⟩

theorem claim_C4_witness :
    readMessage { data := [], chunkSize := 1, pos := 0 } = .error .endOfStreamHeader ∧
    readMessage { data := utf8Encode "Content-Length: 5".data ++ [13, 10, 13, 10, 97, 98]
                , chunkSize := 64, pos := 0 } = .error (.endOfStreamBody 2 5) := by
  constructor
  · exact (claim_C4 _).1 (by decide)
  · exact (claim_C4 _).2.2.1 5 (by decide) (by decide) ⟨2, 5⟩
      (readExactAux_srs_eof 2 _ [] 5 (by decide) (by decide) (by decide) (by decide))

/-- C5: Malformed-header failure.  Whenever the line read where a
`Content-Length` header is expected is nonempty but either lacks the
`Content-Length:` prefix or carries a remainder that, after stripping
whitespace, is not a nonempty string of decimal digits, the message
reader fails with the malformed-header error carrying that line; no
default length is assumed. -/
theorem claim_C5 (s : ShortReadStream)
    (hne : (srsReadline s).1 ≠ [])
    (hbad : stripTokenBytes (utf8Encode "Content-Length:".data) ((srsReadline s).1) = none ∨
      ∃ rest,
        stripTokenBytes (utf8Encode "Content-Length:".data) ((srsReadline s).1) = some rest ∧
        ¬(stripBytes rest ≠ [] ∧ ∀ b ∈ stripBytes rest, isDigitByte b)) :
    readMessage s = .error (.malformedHeader ((srsReadline s).1)) := by
  have hpc : parseContentLength ((srsReadline s).1) = none := by
    unfold parseContentLength
    rcases hbad with h | ⟨rest, hsome, hcond⟩
    · rw [h]
    · rw [hsome]
      dsimp only
      rw [if_neg hcond]
  unfold readMessage
  rw [if_neg hne, hpc]

theorem claim_C5_witness :
    readMessage { data := [70, 111, 111, 10], chunkSize := 1, pos := 0 }
      = .error (.malformedHeader [70, 111, 111, 10]) :=
  claim_C5 _ (by decide) (Or.inl (by decide))

/-- C6: Multi-message FIFO without cross-contamination.  For two written
messages concatenated on one stream, the first read returns the first
value and advances past exactly the first message's bytes, and the second
read, starting exactly there, returns the second value and advances past
exactly the second message's bytes — each body is reconstructed from its
own declared byte range only. -/
theorem claim_C6 (v1 v2 : JsonValue) (s : ShortReadStream)
    (hchunk : 1 ≤ s.chunkSize) (hpos : s.pos ≤ s.data.length)
    (hdrop : s.data.drop s.pos = writeMessage v1 ++ writeMessage v2) :
    readMessage s = .ok (v1, { s with pos := s.pos + (writeMessage v1).length }) ∧
    readMessage { s with pos := s.pos + (writeMessage v1).length }
      = .ok (v2, { s with
          pos := s.pos + (writeMessage v1).length + (writeMessage v2).length }) := by
  have hlen : s.data.length - s.pos
      = (writeMessage v1).length + (writeMessage v2).length := by
    have h := congrArg List.length hdrop
    simp only [List.length_drop, List.length_append] at h
    omega
  constructor
  · exact readMessage_writeMessage v1 s (writeMessage v2) hchunk hpos hdrop
  · have hdrop2 : s.data.drop (s.pos + (writeMessage v1).length)
        = writeMessage v2 ++ [] := by
      rw [← List.drop_drop, hdrop, List.drop_left]
      simp
    have h2 := readMessage_writeMessage v2
      { s with pos := s.pos + (writeMessage v1).length } [] hchunk
      (by
        show s.pos + (writeMessage v1).length ≤ s.data.length
        omega)
      (by
        show s.data.drop (s.pos + (writeMessage v1).length) = writeMessage v2 ++ []
        exact hdrop2)
    rw [h2]

theorem claim_C6_witness :
    readMessage { data := writeMessage JsonValue.null ++ writeMessage (JsonValue.bool true)
                , chunkSize := 1, pos := 0 }
      = .ok (JsonValue.null,
          { data := writeMessage JsonValue.null ++ writeMessage (JsonValue.bool true),
            chunkSize := 1, pos := 0 + (writeMessage JsonValue.null).length }) ∧
    readMessage { data := writeMessage JsonValue.null ++ writeMessage (JsonValue.bool true)
                , chunkSize := 1, pos := 0 + (writeMessage JsonValue.null).length }
      = .ok (JsonValue.bool true,
          { data := writeMessage JsonValue.null ++ writeMessage (JsonValue.bool true),
            chunkSize := 1,
            pos := 0 + (writeMessage JsonValue.null).length
              + (writeMessage (JsonValue.bool true)).length }) :=
  claim_C6 JsonValue.null (JsonValue.bool true) _ (by decide) (Nat.zero_le _) rfl

/-- C7: Writer output format.  The written bytes of any value are exactly
the ASCII bytes of `Content-Length: `, then a nonempty string of decimal
digit bytes whose value is the byte length of the UTF-8 encoded compact
JSON body (counted after encoding, so by bytes, not characters), then
`\x0d\n\x0d\n`, then exactly the body bytes — and nothing else. -/
theorem claim_C7 (v : JsonValue) :
    ∃ D : List Nat,
      writeMessage v
        = utf8Encode ("Content-Length: ".data) ++ D ++ [13, 10, 13, 10]
            ++ utf8Encode (dumps v) ∧
      D ≠ [] ∧ (∀ b ∈ D, isDigitByte b) ∧
      bytesToNat D = (utf8Encode (dumps v)).length := by
  obtain ⟨D, hw, hD, hne, hdig, hval⟩ := writeMessage_decomp v
  refine ⟨D, ?_, hne, hdig, hval⟩
  rw [utf8Encode_ascii ("Content-Length: ".data) (by decide)]
  exact hw

/-- C9: Blank-line leniency of the server dispatch loop.  Any number of
leading lines that are blank after stripping (whitespace bytes other than
the terminating newline) are consumed and skipped without error, and a
written message following them is still read successfully, the cursor
ending exactly after the message. -/
theorem claim_C9 (v : JsonValue) (blanks : List (List Nat)) :
    ∀ (s : ShortReadStream) (extra : List Nat),
      (∀ w ∈ blanks, ∀ x ∈ w, isWsByte x ∧ x ≠ 10) →
      s.data.drop s.pos = blankBytes blanks ++ (writeMessage v ++ extra) →
      serverNextRequest s
        = some (v, { s with
            pos := s.pos + (blankBytes blanks).length + (writeMessage v).length }) := by
  induction blanks with
  | nil =>
    intro s extra hbl hdrop
    have h0 : s.pos + (blankBytes []).length + (writeMessage v).length
        = s.pos + (writeMessage v).length := by
      simp [blankBytes]
    rw [h0]
    exact serverNextRequest_writeMessage v s extra (by simpa [blankBytes] using hdrop)
  | cons w ws ih =>
    intro s extra hbl hdrop
    have hdrop1 : s.data.drop s.pos
        = w ++ 10 :: (blankBytes ws ++ (writeMessage v ++ extra)) := by
      rw [hdrop]
      simp [blankBytes]
    rw [serverNextRequest_skip_blank s w _ (hbl w (by simp)) hdrop1]
    have hdrop2 : s.data.drop (s.pos + w.length + 1)
        = blankBytes ws ++ (writeMessage v ++ extra) := by
      rw [Nat.add_assoc, ← List.drop_drop, hdrop1]
      have ha : w ++ 10 :: (blankBytes ws ++ (writeMessage v ++ extra))
          = (w ++ [10]) ++ (blankBytes ws ++ (writeMessage v ++ extra)) := by
        simp
      have hb : w.length + 1 = (w ++ [10]).length := by
        simp
      rw [ha, hb, List.drop_left]
    have hrec := ih { s with pos := s.pos + w.length + 1 } extra
      (fun u hu => hbl u (by simp [hu]))
      (by
        dsimp only
        exact hdrop2)
    rw [hrec]
    dsimp only
    have hlen9 : (blankBytes (w :: ws)).length
        = w.length + 1 + (blankBytes ws).length := by
      simp [blankBytes]
      try omega
    have harith : s.pos + w.length + 1 + (blankBytes ws).length + (writeMessage v).length
        = s.pos + (blankBytes (w :: ws)).length + (writeMessage v).length := by
      rw [hlen9]
      omega
    rw [harith]

theorem claim_C9_witness :
    serverNextRequest { data := blankBytes [[13]] ++ (writeMessage JsonValue.null ++ [])
                      , chunkSize := 4, pos := 0 }
      = some (JsonValue.null,
          { data := blankBytes [[13]] ++ (writeMessage JsonValue.null ++ []),
            chunkSize := 4,
            pos := 0 + (blankBytes [[13]]).length + (writeMessage JsonValue.null).length }) :=
  claim_C9 JsonValue.null [[13]] _ [] (by decide) rfl

end JsonRpc
